import Mathlib

/-!
# Ktulanux: the hex dump and the pcap driver of `Source.c`

A shallow embedding of `hexDump`, `main` and `timestamp_string`.

* `stdout` is the list of characters written so far.
* `addr` is flat memory: a function from byte offsets to bytes, `none` at an
  offset that is not readable.  A buffer `data` occupies the offsets below
  `data.length`; whatever lies behind it in memory, readable or not, is a
  second function (`bufMem`).  Every access `pc[i]` is logged.  Reading an
  offset that is not readable is undefined in C (in practice the process is
  killed): the embedding then returns `none`.
* The automatic array `buff[17]` is a list of 17 cells, `none` for a cell that
  has not been written yet.  Printing an unwritten cell, running off the end
  of the array while looking for the terminator, or writing outside the array
  is undefined in C: the embedding then returns `none`.
* The counters `i` and `counter` are `int` in the source.  They are natural
  numbers here: inside the `for` loop `i < len`, and the padding loop stops at
  the next multiple of 16, which is at most `2^31`; wrapping there would not
  change `i % 16`, the only thing the loop looks at.
-/

namespace Ktulanux

/-- An `unsigned char`. -/
abbrev Byte := Fin 256

/-! ## `printf` conversions -/

/-- The `0` flag with a minimum field width: pad on the left with `'0'`. -/
def zeroPad (width : Nat) (ds : List Char) : List Char :=
  List.replicate (width - ds.length) '0' ++ ds

/-- Conversion `%04x` / `%02x`: lowercase hexadecimal, at least `width` digits. -/
def fmtHex (width v : Nat) : List Char :=
  zeroPad width (Nat.toDigits 16 v)

/-- Conversion `%i` / `%d`: signed decimal. -/
def fmtInt (v : Int) : List Char :=
  if v < 0 then '-' :: Nat.toDigits 10 v.natAbs else Nat.toDigits 10 v.toNat

/-- Conversion `%06d`: signed decimal, zero padded to at least six characters,
the sign first. -/
def fmtInt06 (v : Int) : List Char :=
  if v < 0 then '-' :: zeroPad 5 (Nat.toDigits 10 v.natAbs)
  else zeroPad 6 (Nat.toDigits 10 v.toNat)

/-- Conversion `%s` applied to an array of cells: the characters before the
first NUL.  `none` when an unwritten cell is read or no NUL is found inside
the array. -/
def cString : List (Option Byte) → Option (List Char)
  | [] => none
  | none :: _ => none
  | some b :: rest =>
    if b = 0 then some [] else (cString rest).map (fun t => Char.ofNat b.val :: t)

/-! ## Memory -/

/-- Memory seen through a pointer to the buffer `data`: the buffer itself,
then whatever follows it (`beyond`, indexed by the same offsets): the byte
that lies there, or `none` when the address is not readable. -/
def bufMem (data : List Byte) (beyond : Nat → Option Byte) : Nat → Option Byte :=
  fun i => if h : i < data.length then some (data.get ⟨i, h⟩) else beyond i

/-! ## `hexDump` -/

/-- State of one `hexDump` call: what was printed, the scratch array `buff`,
the offsets `i` at which `pc[i]` was read, and the indices of `buff` that were
written, both in program order. -/
structure DumpState where
  out : List Char
  buff : List (Option Byte)
  reads : List Nat
  writes : List Nat
  deriving DecidableEq

/-- A `printf` call: append to the output. -/
def DumpState.emit (s : DumpState) (text : List Char) : DumpState :=
  { s with out := s.out ++ text }

/-- The statement `printf("  %s\n", buff)`. -/
def DumpState.printBuff (s : DumpState) : Option DumpState :=
  (cString s.buff).map (fun t => s.emit ("  ".toList ++ t ++ "\n".toList))

/-- The assignment `buff[idx] = v`; `none` when `idx` is outside the array. -/
def DumpState.writeBuff (s : DumpState) (idx : Nat) (v : Byte) : Option DumpState :=
  if idx < s.buff.length then
    some { s with buff := s.buff.set idx (some v), writes := s.writes ++ [idx] }
  else none

/-- What is stored for byte `b` (lines 94-97): `'.'` when `b < 0x20` or
`b > 0x7e`, the byte itself otherwise. -/
def asciiCell (b : Byte) : Byte :=
  if b < 0x20 ∨ b > 0x7e then 0x2e else b

/-- Lines 81-88 of the loop body: at a multiple of 16 print the ASCII column
of the line that ends (not before the first line), then the offset. -/
def openLine (i : Nat) (s : DumpState) : Option DumpState :=
  if i % 16 = 0 then do
    let s0 ← if i ≠ 0 then s.printBuff else some s
    some (s0.emit ("  ".toList ++ fmtHex 4 i ++ " ".toList))
  else some s

/-- Lines 91-98 of the loop body: print the hex code of `pc[i]`, store its
character in `buff[i % 16]` and the terminator in `buff[i % 16 + 1]`; `none`
when `pc[i]` is not readable. -/
def storeByte (pc : Nat → Option Byte) (i : Nat) (s : DumpState) : Option DumpState := do
  let b ← pc i
  let s1 := { s.emit (' ' :: fmtHex 2 b.val) with reads := s.reads ++ [i] }
  let s2 ← s1.writeBuff (i % 16) (asciiCell b)
  s2.writeBuff (i % 16 + 1) 0

/-- Body of the `for` loop (lines 79-98) for index `i`. -/
def hexDumpStep (pc : Nat → Option Byte) (i : Nat) (s : DumpState) : Option DumpState :=
  (openLine i s).bind (storeByte pc i)

/-- State after the iterations `i = 0, ..., k - 1` of the `for` loop. -/
def hexDumpLoop (pc : Nat → Option Byte) (s : DumpState) : Nat → Option DumpState
  | 0 => some s
  | k + 1 => (hexDumpLoop pc s k).bind (hexDumpStep pc k)

/-- The padding loop `while ((i % 16) != 0) { printf("   "); i++; }`
(lines 102-105); `none` when the fuel runs out before the loop ends. -/
def padLoop : Nat → Nat → DumpState → Option DumpState
  | 0, i, s => if i % 16 ≠ 0 then none else some s
  | fuel + 1, i, s =>
    if i % 16 ≠ 0 then padLoop fuel (i + 1) (s.emit "   ".toList) else some s

/-- The function `hexDump(desc, addr, len)`; `desc = none` is `NULL`. -/
def hexDump (desc : Option (List Char)) (pc : Nat → Option Byte) (len : Int) :
    Option DumpState :=
  let s0 : DumpState :=
    { out := match desc with
        | some d => d ++ ":\n".toList
        | none => []
      buff := List.replicate 17 none
      reads := []
      writes := [] }
  if len = 0 then some (s0.emit "  ZERO LENGTH\n".toList)
  else if len < 0 then
    some (s0.emit ("  NEGATIVE LENGTH: ".toList ++ fmtInt len ++ "\n".toList))
  else do
    let s1 ← hexDumpLoop pc s0 len.toNat
    let s2 ← padLoop 16 len.toNat s1
    s2.printBuff

/-! ## `main` -/

/-- What the platform fixes and `main` prints without defining it: the
characters that `%c` shows for the pointers `data` and `my_str`, and
`sizeof(header)`. -/
structure Env where
  dataChar : Char
  strChar : Char
  headerSize : Nat

/-- A record as a successful `pcap_next_ex` leaves it in `main`: the contents
of the variable `header` after the call, and the memory that lies behind
`header` at the time of the dump (`none` where it is not readable). -/
structure Record where
  hdr : List Byte
  behind : Nat → Option Byte

/-- One outcome of `pcap_next_ex` on a savefile before its end: a record
(return value 1) or a read error (return value -1). -/
inductive Pull where
  | packet (r : Record)
  | error

/-- The library call `pcap_next_ex(pcap, &header, &data)` on a savefile whose
remaining outcomes are `src`: the return value, the record stored (if any)
and the outcomes left.  At the end of the file the return value is -2. -/
def pcap_next_ex : List Pull → Int × Option Record × List Pull
  | [] => (-2, none, [])
  | Pull.packet r :: rest => (1, some r, rest)
  | Pull.error :: rest => (-1, none, rest)

/-- State of `main` inside the loop: the capture source, `counter`, the record
in `header`, what was written to `stdout`, the number of calls of
`pcap_next_ex`, and the dump requests issued (buffer and requested length). -/
structure MainState where
  src : List Pull
  counter : Nat
  header : Option Record
  out : List Char
  pulls : Nat
  requests : List (List Byte × Int)

/-- The statement
`printf("%c = %c     udp packet n: %d %d\n", data, my_str, counter, sizeof(header))`. -/
def packetLine (env : Env) (counter : Nat) : List Char :=
  [env.dataChar] ++ " = ".toList ++ [env.strChar] ++ "     udp packet n: ".toList
    ++ fmtInt counter ++ " ".toList ++ fmtInt env.headerSize ++ "\n".toList

/-- What one pass through the loop body prints (lines 145-147) for the
record in `header`: the dump `hexDump("my_str", &header, 2560)`, then
`packetLine`. -/
def dumpBlock (env : Env) (r : Record) (counter : Nat) : Option (List Char) :=
  (hexDump (some "my_str".toList) (bufMem r.hdr r.behind) 2560).map
    (fun d => d.out ++ packetLine env counter)

/-- The loop `while (pcap_next_ex(...) == 1 && counter <= 20) { ... counter++; }`
(lines 140-149); `none` when the fuel runs out or the dump is undefined (it
reads memory that is not readable). -/
def mainLoop (env : Env) : Nat → MainState → Option MainState
  | 0, _ => none
  | fuel + 1, st =>
    let res := pcap_next_ex st.src
    let st1 : MainState :=
      { st with
        src := res.2.2
        header := if res.1 = 1 then res.2.1 else st.header
        pulls := st.pulls + 1 }
    if res.1 = 1 ∧ st1.counter ≤ 20 then
      st1.header.bind fun r =>
        (dumpBlock env r st1.counter).bind fun text =>
          mainLoop env fuel
            { st1 with
              out := st1.out ++ text
              requests := st1.requests ++ [(r.hdr, 2560)]
              counter := st1.counter + 1 }
    else some st1

/-- Result of a run of `main`: the exit status, `stdout`, `stderr`, the number
of calls of `pcap_next_ex` and the dump requests issued. -/
structure MainResult where
  exit : Int
  out : List Char
  err : List Char
  pulls : Nat
  requests : List (List Byte × Int)

/-- The function `main`.  `opened` is the outcome of
`pcap_open_offline("trace-1.pcap", errbuf)`: the message left in `errbuf` on
failure, the capture source otherwise.  The loop passes at most 21 times, the
fuel.  The final `getchar()` only waits for input. -/
def main (env : Env) (opened : Except (List Char) (List Pull)) : Option MainResult :=
  match opened with
  | Except.error msg =>
    some { exit := 1, out := []
           err := "error reading pcap file: ".toList ++ msg ++ "\n".toList
           pulls := 0, requests := [] }
  | Except.ok src =>
    (mainLoop env 21
        { src := src, counter := 1, header := none, out := [], pulls := 0, requests := [] }).map
      (fun st => { exit := 0, out := st.out, err := [], pulls := st.pulls, requests := st.requests })

/-! ## `timestamp_string` -/

/-- The cast `(int)` applied to a wider signed value: the value modulo `2^32`,
taken in the range of a 32-bit `int`. -/
def toInt32 (v : Int) : Int :=
  (v + 2147483648) % 4294967296 - 2147483648

/-- The function `timestamp_string(ts)` for `ts.tv_sec = sec` and
`ts.tv_usec = usec`: the text that
`sprintf(timestamp_string_buf, "%d.%06d", (int)ts.tv_sec, (int)ts.tv_usec)`
leaves in the static buffer. -/
def timestamp_string (sec usec : Int) : List Char :=
  fmtInt (toInt32 sec) ++ ".".toList ++ fmtInt06 (toInt32 usec)

/-! ## Reading the output back -/

/-- The lines of a text: maximal runs without `'\n'`, each ended by `'\n'`
(a last unterminated run is a line too). -/
def splitLines : List Char → List (List Char)
  | [] => []
  | c :: cs =>
    if c = '\n' then [] :: splitLines cs
    else match splitLines cs with
      | [] => [[c]]
      | l :: ls => (c :: l) :: ls

/-- Characters of the offset field of a dump line: after the two leading
blanks, up to the next blank. -/
def offsetField (l : List Char) : List Char :=
  (l.drop 2).takeWhile (fun c => c ≠ ' ')

/-- What follows the offset field and its separating blank. -/
def afterOffset (l : List Char) : List Char :=
  ((l.drop 2).dropWhile (fun c => c ≠ ' ')).drop 1

/-- Cut the first `k` slots of three characters out of a text. -/
def hexSlots : Nat → List Char → List (List Char)
  | 0, _ => []
  | k + 1, l => l.take 3 :: hexSlots k (l.drop 3)

/-- The hex portion of a dump line: the slots before the first blank slot,
out of the sixteen slots that follow the offset. -/
def hexPortion (l : List Char) : List Char :=
  ((hexSlots 16 (afterOffset l)).takeWhile (fun t => t ≠ "   ".toList)).flatten

/-- Position in a dump line at which the ASCII column starts: two blanks, the
offset, one blank, sixteen slots of three characters, two blanks. -/
def asciiStart (l : List Char) : Nat :=
  2 + (offsetField l).length + 1 + 3 * 16 + 2

/-- The ASCII column of a dump line. -/
def asciiColumn (l : List Char) : List Char :=
  l.drop (asciiStart l)

/-- Value of a lowercase hexadecimal digit. -/
def hexVal (c : Char) : Option Nat :=
  if '0' ≤ c ∧ c ≤ '9' then some (c.toNat - '0'.toNat)
  else if 'a' ≤ c ∧ c ≤ 'f' then some (c.toNat - 'a'.toNat + 10)
  else none

/-- Decode a hex portion: a sequence of tokens, each one blank and two
lowercase hexadecimal digits. -/
def decodeTokens : List Char → Option (List Byte)
  | [] => some []
  | ' ' :: h :: l :: rest =>
    match hexVal h, hexVal l, decodeTokens rest with
    | some a, some b, some bs => some (⟨(16 * a + b) % 256, Nat.mod_lt _ (by decide)⟩ :: bs)
    | _, _, _ => none
  | _ => none

/-- Decode the hex portions of a list of dump lines and concatenate. -/
def decodeLines : List (List Char) → Option (List Byte)
  | [] => some []
  | l :: ls =>
    match decodeTokens (hexPortion l), decodeLines ls with
    | some a, some b => some (a ++ b)
    | _, _ => none

/-! ## Closed form of the rendering -/

/-- The first `m` bytes of group `j`: offsets `16 * j, ..., 16 * j + m - 1`. -/
def group (pc : Nat → Byte) (j m : Nat) : List Byte :=
  (List.range m).map (fun t => pc (16 * j + t))

/-- Hex codes of a group, each preceded by a blank. -/
def hexPart (g : List Byte) : List Char :=
  g.flatMap (fun b => ' ' :: fmtHex 2 b.val)

/-- Characters stored in `buff` for a group. -/
def asciiPart (g : List Byte) : List Char :=
  g.map (fun b => Char.ofNat (asciiCell b).val)

/-- Start of line `j`: two blanks, the offset, one blank. -/
def lineHead (j : Nat) : List Char :=
  "  ".toList ++ fmtHex 4 (16 * j) ++ " ".toList

/-- Line `j` after its head when its group has `m` bytes: the hex codes, three
blanks for each missing byte, two blanks, the ASCII column. -/
def lineBody (pc : Nat → Byte) (j m : Nat) : List Char :=
  hexPart (group pc j m) ++ (List.replicate (3 * (16 - m)) ' '
    ++ ("  ".toList ++ asciiPart (group pc j m)))

/-- Line `j` when its group has `m` bytes, without the line end. -/
def lineText (pc : Nat → Byte) (j m : Nat) : List Char :=
  lineHead j ++ lineBody pc j m

/-- Group `j` of the first `n` bytes of `data`: the bytes at the offsets
`16 * j, ..., min (16 * j + 16) n - 1`. -/
def dataGroup (data : List Byte) (n j : Nat) : List Byte :=
  ((data.take n).drop (16 * j)).take 16

/-- The character shown for a byte in the ASCII column, as the specification
words it: `'.'` below `0x20` or above `0x7e`, the byte's own character
otherwise. -/
def asciiChar (b : Byte) : Char :=
  if b.val < 0x20 ∨ b.val > 0x7e then '.' else Char.ofNat b.val

/-- The lowercase hexadecimal digit of a value below 16. -/
def lowerHexDigit (d : Nat) : Char :=
  "0123456789abcdef".toList.getD d '?'

/-- A byte as one blank and two lowercase hexadecimal digits. -/
def hexToken (b : Byte) : List Char :=
  [' ', lowerHexDigit (b.val / 16), lowerHexDigit (b.val % 16)]

/-- Number of groups of 16 in `n` bytes, the last one possibly short. -/
def numLines (n : Nat) : Nat := (n + 15) / 16

/-- Number of bytes of group `j` among `n` bytes. -/
def groupLen (n j : Nat) : Nat := min 16 (n - 16 * j)

/-- All lines of the dump of `n` bytes. -/
def dumpLines (pc : Nat → Byte) (n : Nat) : List (List Char) :=
  (List.range (numLines n)).map (fun j => lineText pc j (groupLen n j))

/-- The dump of `n` bytes as one text. -/
def dumpText (pc : Nat → Byte) (n : Nat) : List Char :=
  (dumpLines pc n).flatMap (fun l => l ++ "\n".toList)

/-- What `hexDump` prints for `desc`. -/
def labelText : Option (List Char) → List Char
  | some d => d ++ ":\n".toList
  | none => []

/-- Loop invariant of `hexDump` after `16 * q + m` iterations, `1 ≤ m ≤ 16`,
started in `s0`: the lines `0 .. q - 1` are complete, line `q` is open with
`m` hex codes, and `buff` holds the `m` characters of group `q` and the
terminator. -/
def LoopInv (pc : Nat → Byte) (s0 : DumpState) (q m : Nat) (s : DumpState) : Prop :=
  s.out = s0.out ++ (List.range q).flatMap (fun j => lineText pc j 16 ++ "\n".toList)
      ++ lineHead q ++ hexPart (group pc q m)
  ∧ s.buff.length = 17
  ∧ s.buff.take (m + 1) = (group pc q m).map (fun b => some (asciiCell b)) ++ [some 0]
  ∧ s.reads = s0.reads ++ List.range (16 * q + m)
  ∧ s.writes = s0.writes ++ (List.range (16 * q + m)).flatMap (fun i => [i % 16, i % 16 + 1])

/-- Value of a string of decimal digits. -/
def readNat (ds : List Char) : Nat :=
  ds.foldl (fun a c => 10 * a + (c.toNat - '0'.toNat)) 0

/-- Value of a signed decimal numeral: an optional `'-'`, then digits. -/
def readInt : List Char → Int
  | '-' :: ds => -(readNat ds : Int)
  | ds => (readNat ds : Int)

/-- Value of a string of lowercase hexadecimal digits. -/
def readHex (ds : List Char) : Nat :=
  ds.foldl (fun a c => 16 * a + (hexVal c).getD 0) 0

/-- The bytes of a memory, with 0 standing in where it is not readable. -/
def memBytes (m : Nat → Option Byte) : Nat → Byte :=
  fun i => (m i).getD 0

/-- The bytes seen through a pointer to the buffer `data`. -/
def bufBytes (data : List Byte) (beyond : Nat → Option Byte) : Nat → Byte :=
  memBytes (bufMem data beyond)

/-- The memory that the dump of a record reads is readable: the 2560 bytes
at `header`. -/
def Record.readable (r : Record) : Prop :=
  ∀ i, i < 2560 → (bufMem r.hdr r.behind i).isSome = true

/-- The records a capture source delivers before its first read error or its
end. -/
def leadingRecords : List Pull → List Record
  | Pull.packet r :: rest => r :: leadingRecords rest
  | _ => []

/-- Closed form of what one pass through the loop body prints: the label
line, the dump of 2560 bytes, the `printf` line. -/
def blockText (env : Env) (r : Record) (c : Nat) : List Char :=
  "my_str:\n".toList ++ dumpText (bufBytes r.hdr r.behind) 2560 ++ packetLine env c

/-- The blocks of the records `rs`, the first one printed with `counter = c`. -/
def blockTexts (env : Env) : Nat → List Record → List Char
  | _, [] => []
  | c, r :: rs => blockText env r c ++ blockTexts env (c + 1) rs

/-! # Properties -/

/-! ## Digits -/

theorem digitChar_big (k : Nat) : Nat.digitChar (k + 16) = '*' := rfl

theorem digitChar_ne_blank (d : Nat) : Nat.digitChar d ≠ ' ' ∧ Nat.digitChar d ≠ '\n' := by
  rcases lt_or_ge d 16 with h | h
  · interval_cases d <;> exact ⟨by decide, by decide⟩
  · obtain ⟨k, rfl⟩ := Nat.exists_eq_add_of_le' h
    rw [digitChar_big]
    exact ⟨by decide, by decide⟩

theorem toDigitsCore_mem (b : Nat) (hb : 0 < b) (P : Char → Prop)
    (hP : ∀ d, d < b → P (Nat.digitChar d)) :
    ∀ (fuel n : Nat) (acc : List Char), (∀ c ∈ acc, P c) →
      ∀ c ∈ Nat.toDigitsCore b fuel n acc, P c := by
  intro fuel
  induction fuel with
  | zero => intro n acc h; simpa [Nat.toDigitsCore] using h
  | succ fuel ih =>
    intro n acc h
    have hacc : ∀ c ∈ Nat.digitChar (n % b) :: acc, P c := by
      intro c hc
      rcases List.mem_cons.mp hc with rfl | hc
      · exact hP _ (Nat.mod_lt _ hb)
      · exact h c hc
    simp only [Nat.toDigitsCore]
    split
    · exact hacc
    · exact ih _ _ hacc

theorem fmtHex_mem (w v : Nat) : ∀ c ∈ fmtHex w v, c ≠ ' ' ∧ c ≠ '\n' := by
  intro c hc
  unfold fmtHex zeroPad at hc
  rcases List.mem_append.mp hc with hc | hc
  · rw [List.eq_of_mem_replicate hc]; decide
  · exact toDigitsCore_mem 16 (by decide) (fun c => c ≠ ' ' ∧ c ≠ '\n')
      (fun d _ => digitChar_ne_blank d) _ _ [] (by simp) c hc

set_option maxRecDepth 100000 in
theorem fmtHex_byte : ∀ b : Byte,
    fmtHex 2 b.val = [Nat.digitChar (b.val / 16), Nat.digitChar (b.val % 16)] := by
  decide

set_option maxRecDepth 100000 in
theorem asciiCell_ne : ∀ b : Byte,
    asciiCell b ≠ 0 ∧ Char.ofNat (asciiCell b).val ≠ '\n' := by
  decide

/-! ## The scratch array -/

theorem cString_cells (g : List Byte) (rest : List (Option Byte)) :
    cString (g.map (fun b => some (asciiCell b)) ++ some 0 :: rest) = some (asciiPart g) := by
  induction g with
  | nil => simp [cString, asciiPart]
  | cons b g ih =>
    simp only [List.map_cons, List.cons_append, cString, (asciiCell_ne b).1, if_false, ih]
    simp [asciiPart]
    exact ih

theorem printBuff_of_cells (s : DumpState) (g : List Byte)
    (h : s.buff.take (g.length + 1) = g.map (fun b => some (asciiCell b)) ++ [some 0]) :
    s.printBuff = some (s.emit ("  ".toList ++ asciiPart g ++ "\n".toList)) := by
  have hb : s.buff = g.map (fun b => some (asciiCell b)) ++ some 0 :: s.buff.drop (g.length + 1) := by
    conv_lhs => rw [← List.take_append_drop (g.length + 1) s.buff, h]
    simp
  unfold DumpState.printBuff
  rw [hb, cString_cells]
  simp [DumpState.emit]

theorem set_set_take {α : Type} (l : List α) (m : Nat) (a b : α) (h : m + 1 < l.length) :
    ((l.set m a).set (m + 1) b).take (m + 2) = l.take m ++ [a, b] := by
  induction l generalizing m with
  | nil => simp at h
  | cons x l ih =>
    cases m with
    | zero =>
      cases l with
      | nil => simp at h
      | cons y l => simp
    | succ m =>
      simp only [List.length_cons, Nat.add_lt_add_iff_right] at h
      simpa using ih m h

theorem storeByte_eq (mem : Nat → Option Byte) (pc : Nat → Byte) (i : Nat) (s : DumpState)
    (hv : mem i = some (pc i)) (h : s.buff.length = 17) :
    storeByte mem i s = some
      { out := s.out ++ ' ' :: fmtHex 2 (pc i).val
        buff := (s.buff.set (i % 16) (some (asciiCell (pc i)))).set (i % 16 + 1) (some 0)
        reads := s.reads ++ [i]
        writes := s.writes ++ [i % 16, i % 16 + 1] } := by
  have h1 : i % 16 < 17 := by omega
  have h2 : i % 16 + 1 < 17 := by omega
  simp [storeByte, hv, DumpState.writeBuff, DumpState.emit, h, h1, h2]

/-! ## The loop -/

@[simp] theorem group_length (pc : Nat → Byte) (j m : Nat) : (group pc j m).length = m := by
  simp [group]

theorem group_succ (pc : Nat → Byte) (j m : Nat) :
    group pc j (m + 1) = group pc j m ++ [pc (16 * j + m)] := by
  simp [group, List.range_succ]

theorem hexPart_append (g h : List Byte) : hexPart (g ++ h) = hexPart g ++ hexPart h := by
  simp [hexPart]

theorem range_flatMap_succ {α : Type} (f : Nat → List α) (q : Nat) :
    (List.range (q + 1)).flatMap f = (List.range q).flatMap f ++ f q := by
  simp [List.range_succ]

theorem openLine_mid (i : Nat) (s : DumpState) (h : i % 16 ≠ 0) : openLine i s = some s := by
  simp [openLine, h]

theorem hexDumpStep_of_open (mem : Nat → Option Byte) (pc : Nat → Byte) (i : Nat)
    (s s1 : DumpState) (hv : mem i = some (pc i))
    (ho : openLine i s = some s1) (h : s1.buff.length = 17) :
    hexDumpStep mem i s = some
      { out := s1.out ++ ' ' :: fmtHex 2 (pc i).val
        buff := (s1.buff.set (i % 16) (some (asciiCell (pc i)))).set (i % 16 + 1) (some 0)
        reads := s1.reads ++ [i]
        writes := s1.writes ++ [i % 16, i % 16 + 1] } := by
  unfold hexDumpStep
  rw [ho, Option.some_bind]
  exact storeByte_eq mem pc i s1 hv h

theorem group_one (pc : Nat → Byte) (j : Nat) : group pc j 1 = [pc (16 * j)] := rfl

theorem hexPart_single (b : Byte) : hexPart [b] = ' ' :: fmtHex 2 b.val := by
  simp [hexPart]

theorem take_cells (l : List (Option Byte)) (g : List Byte) (m : Nat) (hg : g.length = m)
    (h : l.take (m + 1) = g.map (fun b => some (asciiCell b)) ++ [some 0]) :
    l.take m = g.map (fun b => some (asciiCell b)) := by
  have h1 : l.take m = (l.take (m + 1)).take m := by
    rw [List.take_take]; congr 1; omega
  rw [h1, h]
  exact List.take_left' (by simp [hg])

theorem step_first (mem : Nat → Option Byte) (pc : Nat → Byte) (s0 : DumpState)
    (hv : mem 0 = some (pc 0)) (h0 : s0.buff.length = 17) :
    ∃ s, hexDumpStep mem 0 s0 = some s ∧ LoopInv pc s0 0 1 s := by
  have ho : openLine 0 s0 = some (s0.emit ("  ".toList ++ fmtHex 4 0 ++ " ".toList)) := by
    simp [openLine]
  refine ⟨_, hexDumpStep_of_open mem pc 0 s0 _ hv ho (by simpa [DumpState.emit] using h0), ?_⟩
  refine ⟨?_, ?_, ?_, ?_, ?_⟩
  · simp [DumpState.emit, lineHead, group_one, hexPart_single]
  · simp [DumpState.emit, h0]
  · have := set_set_take s0.buff 0 (some (asciiCell (pc 0))) (some 0) (by omega)
    simpa [DumpState.emit, group_one] using this
  · simp [DumpState.emit, List.range_succ]
  · simp [DumpState.emit, List.range_succ]

theorem step_same (mem : Nat → Option Byte) (pc : Nat → Byte) (s0 s : DumpState) (q m : Nat)
    (hv : mem (16 * q + m) = some (pc (16 * q + m))) (hm1 : 1 ≤ m)
    (hm : m < 16) (inv : LoopInv pc s0 q m s) :
    ∃ s1, hexDumpStep mem (16 * q + m) s = some s1 ∧ LoopInv pc s0 q (m + 1) s1 := by
  obtain ⟨hout, hlen, hcells, hreads, hwrites⟩ := inv
  have hi : (16 * q + m) % 16 = m := by omega
  have ho : openLine (16 * q + m) s = some s := openLine_mid _ _ (by omega)
  refine ⟨_, hexDumpStep_of_open mem pc _ s s hv ho hlen, ?_⟩
  refine ⟨?_, ?_, ?_, ?_, ?_⟩
  · simp [hout, group_succ, hexPart_append, hexPart_single]
  · simp [hlen]
  · have h1 := set_set_take s.buff m (some (asciiCell (pc (16 * q + m)))) (some 0) (by omega)
    have h2 := take_cells s.buff (group pc q m) m (group_length pc q m) hcells
    simp only [hi]
    rw [h1, h2, group_succ]
    simp
  · simp [hreads, ← Nat.add_assoc, List.range_succ]
  · simp [hwrites, ← Nat.add_assoc, List.range_succ]

theorem step_new (mem : Nat → Option Byte) (pc : Nat → Byte) (s0 s : DumpState) (q : Nat)
    (hv : mem (16 * q + 16) = some (pc (16 * q + 16)))
    (inv : LoopInv pc s0 q 16 s) :
    ∃ s1, hexDumpStep mem (16 * q + 16) s = some s1 ∧ LoopInv pc s0 (q + 1) 1 s1 := by
  obtain ⟨hout, hlen, hcells, hreads, hwrites⟩ := inv
  have hi : (16 * q + 16) % 16 = 0 := by omega
  have hp := printBuff_of_cells s (group pc q 16) (by simpa using hcells)
  have ho : openLine (16 * q + 16) s = some
      ((s.emit ("  ".toList ++ asciiPart (group pc q 16) ++ "\n".toList)).emit
        ("  ".toList ++ fmtHex 4 (16 * q + 16) ++ " ".toList)) := by
    simp [openLine, hi, hp]
  refine ⟨_, hexDumpStep_of_open mem pc _ s _ hv ho (by simpa [DumpState.emit] using hlen), ?_⟩
  refine ⟨?_, ?_, ?_, ?_, ?_⟩
  · simp [DumpState.emit, hout, range_flatMap_succ, lineText, lineBody, lineHead, Nat.mul_add,
      group_one, hexPart_single]
  · simp [DumpState.emit, hlen]
  · have h1 := set_set_take s.buff 0 (some (asciiCell (pc (16 * q + 16)))) (some 0) (by omega)
    simp only [hi, DumpState.emit]
    rw [h1]
    simp [group_one, Nat.mul_add]
  · simp [DumpState.emit, hreads, ← Nat.add_assoc, List.range_succ, Nat.mul_add]
  · simp [DumpState.emit, hwrites, ← Nat.add_assoc, List.range_succ, Nat.mul_add]

theorem hexDumpLoop_inv (mem : Nat → Option Byte) (pc : Nat → Byte) (s0 : DumpState)
    (h0 : s0.buff.length = 17) (k : Nat) (hread : ∀ i, i ≤ k → mem i = some (pc i)) :
    ∃ s, hexDumpLoop mem s0 (k + 1) = some s ∧ LoopInv pc s0 (k / 16) (k % 16 + 1) s := by
  induction k with
  | zero => simpa [hexDumpLoop] using step_first mem pc s0 (hread 0 (le_refl 0)) h0
  | succ k ih =>
    obtain ⟨s, hs, inv⟩ := ih (fun i hi => hread i (by omega))
    have hk : 16 * (k / 16) + (k % 16 + 1) = k + 1 := by omega
    have hv := hread (k + 1) (le_refl _)
    by_cases hm : k % 16 + 1 < 16
    · obtain ⟨s1, h1, inv1⟩ := step_same mem pc s0 s (k / 16) (k % 16 + 1)
        (by rw [hk]; exact hv) (by omega) hm inv
      refine ⟨s1, ?_, ?_⟩
      · rw [hexDumpLoop, hs, Option.some_bind, ← hk]; exact h1
      · have e1 : (k + 1) / 16 = k / 16 := by omega
        have e2 : (k + 1) % 16 + 1 = k % 16 + 1 + 1 := by omega
        rw [e1, e2]; exact inv1
    · have hm16 : k % 16 + 1 = 16 := by omega
      rw [hm16] at inv
      have hk2 : 16 * (k / 16) + 16 = k + 1 := by omega
      obtain ⟨s1, h1, inv1⟩ := step_new mem pc s0 s (k / 16) (by rw [hk2]; exact hv) inv
      refine ⟨s1, ?_, ?_⟩
      · rw [hexDumpLoop, hs, Option.some_bind, ← hk2]; exact h1
      · have e1 : (k + 1) / 16 = k / 16 + 1 := by omega
        have e2 : (k + 1) % 16 + 1 = 1 := by omega
        rw [e1, e2]; exact inv1

theorem replicate_three (c : Nat) :
    List.replicate (3 * (c + 1)) ' ' = "   ".toList ++ List.replicate (3 * c) ' ' := rfl

theorem padLoop_eq (fuel i : Nat) (s : DumpState) (h : (16 - i % 16) % 16 ≤ fuel) :
    padLoop fuel i s = some (s.emit (List.replicate (3 * ((16 - i % 16) % 16)) ' ')) := by
  induction fuel generalizing i s with
  | zero =>
    have hi : i % 16 = 0 := by omega
    simp [padLoop, hi, DumpState.emit]
  | succ fuel ih =>
    by_cases hi : i % 16 = 0
    · simp [padLoop, hi, DumpState.emit]
    · have e : (16 - i % 16) % 16 = (16 - (i + 1) % 16) % 16 + 1 := by omega
      rw [padLoop, if_pos hi, ih (i + 1) _ (by omega), e]
      simp [DumpState.emit, replicate_three]

theorem dumpText_split (pc : Nat → Byte) (k : Nat) :
    dumpText pc (k + 1) =
      (List.range (k / 16)).flatMap (fun j => lineText pc j 16 ++ "\n".toList)
        ++ (lineText pc (k / 16) (k % 16 + 1) ++ "\n".toList) := by
  have hn : numLines (k + 1) = k / 16 + 1 := by unfold numLines; omega
  have hlast : groupLen (k + 1) (k / 16) = k % 16 + 1 := by unfold groupLen; omega
  have hfull : (List.range (k / 16)).map (fun j => lineText pc j (groupLen (k + 1) j))
      = (List.range (k / 16)).map (fun j => lineText pc j 16) := by
    apply List.map_congr_left
    intro j hj
    have hj1 : j < k / 16 := List.mem_range.mp hj
    have : groupLen (k + 1) j = 16 := by unfold groupLen; omega
    rw [this]
  unfold dumpText dumpLines
  rw [hn, List.range_succ, List.map_append, hfull, List.map_singleton, hlast]
  simp [List.flatMap, List.map_map, Function.comp_def]

/-- For a positive length `n`, when the bytes at the offsets below `n` are
readable, `hexDump` returns, prints the label and the closed form `dumpText`,
and reads exactly the offsets `0, ..., n - 1`, in order. -/
theorem hexDump_pos (desc : Option (List Char)) (mem : Nat → Option Byte) (pc : Nat → Byte)
    (n : Nat) (hn : 0 < n) (hread : ∀ i, i < n → mem i = some (pc i)) :
    ∃ s, hexDump desc mem (n : Int) = some s
      ∧ s.out = labelText desc ++ dumpText pc n
      ∧ s.reads = List.range n
      ∧ s.writes = (List.range n).flatMap (fun i => [i % 16, i % 16 + 1]) := by
  obtain ⟨k, rfl⟩ : ∃ k, n = k + 1 := ⟨n - 1, by omega⟩
  let s0 : DumpState :=
    { out := labelText desc, buff := List.replicate 17 none, reads := [], writes := [] }
  obtain ⟨s1, h1, hout, hlen, hcells, hreads, hwrites⟩ :=
    hexDumpLoop_inv mem pc s0 (by simp [s0]) k (fun i hi => hread i (by omega))
  have hk : 16 * (k / 16) + (k % 16 + 1) = k + 1 := by omega
  have hpad : (16 - (k + 1) % 16) % 16 = 16 - (k % 16 + 1) := by omega
  have h2 := padLoop_eq 16 (k + 1) s1 (by omega)
  rw [hpad] at h2
  have h3 := printBuff_of_cells
    (s1.emit (List.replicate (3 * (16 - (k % 16 + 1))) ' ')) (group pc (k / 16) (k % 16 + 1))
    (by simpa [DumpState.emit] using hcells)
  have hd : hexDump desc mem ((k + 1 : Nat) : Int) = some
      ((s1.emit (List.replicate (3 * (16 - (k % 16 + 1))) ' ')).emit
        ("  ".toList ++ asciiPart (group pc (k / 16) (k % 16 + 1)) ++ "\n".toList)) := by
    have e0 : ((k + 1 : Nat) : Int) ≠ 0 := by omega
    have e1 : ¬ ((k + 1 : Nat) : Int) < 0 := by omega
    have e2 : ((k + 1 : Nat) : Int).toNat = k + 1 := by omega
    unfold hexDump
    simp only [e0, e1, e2, if_false]
    change ((hexDumpLoop mem s0 (k + 1)).bind fun s1 =>
      (padLoop 16 (k + 1) s1).bind fun s2 => s2.printBuff) = _
    rw [h1, Option.some_bind, h2, Option.some_bind, h3]
  refine ⟨_, hd, ?_, ?_, ?_⟩
  · rw [dumpText_split]
    simp [DumpState.emit, hout, s0, lineText, lineBody]
  · simp [DumpState.emit, hreads, s0, hk]
  · simp [DumpState.emit, hwrites, s0, hk]

theorem memBytes_of_isSome (mem : Nat → Option Byte) (i : Nat) (h : (mem i).isSome = true) :
    mem i = some (memBytes mem i) := by
  unfold memBytes
  cases hm : mem i with
  | none => rw [hm] at h; exact absurd h (by decide)
  | some b => rfl

/-- The same for a memory given with its readable offsets only. -/
theorem hexDump_readable (desc : Option (List Char)) (mem : Nat → Option Byte) (n : Nat)
    (hn : 0 < n) (hread : ∀ i, i < n → (mem i).isSome = true) :
    ∃ s, hexDump desc mem (n : Int) = some s
      ∧ s.out = labelText desc ++ dumpText (memBytes mem) n
      ∧ s.reads = List.range n
      ∧ s.writes = (List.range n).flatMap (fun i => [i % 16, i % 16 + 1]) :=
  hexDump_pos desc mem (memBytes mem) n hn (fun i hi => memBytes_of_isSome mem i (hread i hi))

theorem storeByte_unreadable (mem : Nat → Option Byte) (i : Nat) (s : DumpState)
    (h : mem i = none) : storeByte mem i s = none := by
  simp [storeByte, h]

theorem hexDumpLoop_unreadable (mem : Nat → Option Byte) (s : DumpState) (k : Nat)
    (h : mem k = none) : ∀ m, k < m → hexDumpLoop mem s m = none := by
  intro m
  induction m with
  | zero => intro hk; omega
  | succ m ih =>
    intro hk
    rw [hexDumpLoop]
    by_cases hkm : k < m
    · rw [ih hkm]; rfl
    · have e : m = k := by omega
      subst e
      cases hl : hexDumpLoop mem s m with
      | none => rfl
      | some t =>
        rw [Option.some_bind, hexDumpStep]
        cases ho : openLine m t with
        | none => rfl
        | some u => rw [Option.some_bind]; exact storeByte_unreadable mem m u h

/-- A dump that reaches an offset that is not readable is undefined. -/
theorem hexDump_unreadable (desc : Option (List Char)) (mem : Nat → Option Byte) (n k : Nat)
    (hk : k < n) (h : mem k = none) : hexDump desc mem (n : Int) = none := by
  have e0 : (n : Int) ≠ 0 := by omega
  have e1 : ¬ (n : Int) < 0 := by omega
  have e2 : (n : Int).toNat = n := by omega
  unfold hexDump
  simp only [e0, e1, e2, if_false]
  have hl := hexDumpLoop_unreadable mem
    { out := labelText desc, buff := List.replicate 17 none, reads := [], writes := [] } k h n hk
  change ((hexDumpLoop mem
      { out := labelText desc, buff := List.replicate 17 none, reads := [], writes := [] } n).bind
    fun s1 => (padLoop 16 n s1).bind fun s2 => s2.printBuff) = _
  rw [hl]
  rfl

/-! ## Lines of the output -/

theorem splitLines_line (l rest : List Char) (h : '\n' ∉ l) :
    splitLines (l ++ '\n' :: rest) = l :: splitLines rest := by
  induction l with
  | nil => simp [splitLines]
  | cons c l ih =>
    have hc : c ≠ '\n' := fun e => h (by simp [e])
    have hl : '\n' ∉ l := fun e => h (by simp [e])
    simp [splitLines, hc, ih hl]

theorem splitLines_flatMap (ls : List (List Char)) (h : ∀ l ∈ ls, '\n' ∉ l) :
    splitLines (ls.flatMap (fun l => l ++ "\n".toList)) = ls := by
  induction ls with
  | nil => simp [splitLines]
  | cons l ls ih =>
    have h1 : '\n' ∉ l := h l (by simp)
    have h2 : ∀ l1 ∈ ls, '\n' ∉ l1 := fun l1 hl1 => h l1 (by simp [hl1])
    have := splitLines_line l (ls.flatMap (fun l => l ++ "\n".toList)) h1
    rw [ih h2] at this
    simpa [List.flatMap_cons] using this

theorem hexPart_mem (g : List Byte) : ∀ c ∈ hexPart g, c ≠ '\n' := by
  intro c hc
  simp only [hexPart, List.mem_flatMap] at hc
  obtain ⟨b, _, hb⟩ := hc
  rcases List.mem_cons.mp hb with rfl | hb
  · decide
  · exact (fmtHex_mem 2 _ c hb).2

theorem asciiPart_mem (g : List Byte) : ∀ c ∈ asciiPart g, c ≠ '\n' := by
  intro c hc
  simp only [asciiPart, List.mem_map] at hc
  obtain ⟨b, _, rfl⟩ := hc
  exact (asciiCell_ne b).2

theorem lineText_no_newline (pc : Nat → Byte) (j m : Nat) : '\n' ∉ lineText pc j m := by
  intro h
  simp only [lineText, lineBody, lineHead, List.mem_append] at h
  rcases h with ((h | h) | h) | h | h | h | h
  · revert h; decide
  · exact (fmtHex_mem 4 _ _ h).2 rfl
  · revert h; decide
  · exact hexPart_mem _ _ h rfl
  · exact absurd (List.eq_of_mem_replicate h) (by decide)
  · revert h; decide
  · exact asciiPart_mem _ _ h rfl

theorem splitLines_dumpText (pc : Nat → Byte) (n : Nat) :
    splitLines (dumpText pc n) = dumpLines pc n := by
  apply splitLines_flatMap
  intro l hl
  simp only [dumpLines, List.mem_map] at hl
  obtain ⟨j, _, rfl⟩ := hl
  exact lineText_no_newline pc j _

/-! ## Fields of a line -/

theorem takeWhile_append_stop {α : Type} (p : α → Bool) (xs : List α) (y : α) (r : List α)
    (hx : ∀ x ∈ xs, p x = true) (hy : p y = false) :
    (xs ++ y :: r).takeWhile p = xs ∧ (xs ++ y :: r).dropWhile p = y :: r := by
  induction xs with
  | nil => simp [List.takeWhile, List.dropWhile, hy]
  | cons x xs ih =>
    have hx1 : p x = true := hx x (by simp)
    have ih1 := ih (fun z hz => hx z (by simp [hz]))
    simp [List.takeWhile, List.dropWhile, hx1, ih1.1, ih1.2]

set_option maxRecDepth 100000 in
theorem fmtHex_token : ∀ b : Byte, ' ' :: fmtHex 2 b.val = hexToken b := by
  decide

set_option maxRecDepth 100000 in
theorem asciiCell_char : ∀ b : Byte, Char.ofNat (asciiCell b).val = asciiChar b := by
  decide

set_option maxRecDepth 100000 in
theorem hexToken_ne_blank : ∀ b : Byte, hexToken b ≠ "   ".toList := by
  decide

theorem hexPart_eq (g : List Byte) : hexPart g = g.flatMap hexToken := by
  unfold hexPart
  congr 1
  funext b
  exact fmtHex_token b

theorem asciiPart_eq (g : List Byte) : asciiPart g = g.map asciiChar := by
  unfold asciiPart
  congr 1
  funext b
  exact asciiCell_char b

theorem hexPart_length (g : List Byte) : (hexPart g).length = 3 * g.length := by
  rw [hexPart_eq]
  induction g with
  | nil => rfl
  | cons b g ih => simp [List.flatMap_cons, hexToken, ih]; omega

theorem lineHead_drop (j : Nat) (r : List Char) :
    (lineHead j ++ r).drop 2 = fmtHex 4 (16 * j) ++ ' ' :: r := by
  simp [lineHead]

theorem offsetField_lineText (pc : Nat → Byte) (j m : Nat) :
    offsetField (lineText pc j m) = fmtHex 4 (16 * j) := by
  unfold offsetField lineText
  rw [lineHead_drop]
  exact (takeWhile_append_stop _ _ _ _
    (fun c hc => by simpa using (fmtHex_mem 4 _ c hc).1) (by simp)).1

theorem afterOffset_lineText (pc : Nat → Byte) (j m : Nat) :
    afterOffset (lineText pc j m) = lineBody pc j m := by
  unfold afterOffset lineText
  rw [lineHead_drop]
  rw [(takeWhile_append_stop _ _ _ _
    (fun c hc => by simpa using (fmtHex_mem 4 _ c hc).1) (by simp)).2]
  rfl

theorem hexSlots_tokens (g : List Byte) (k : Nat) (r : List Char) :
    hexSlots (g.length + k) (g.flatMap hexToken ++ r) = g.map hexToken ++ hexSlots k r := by
  induction g with
  | nil => simp
  | cons b g ih =>
    have e : (b :: g).length + k = (g.length + k) + 1 := by simp; omega
    rw [e, hexSlots]
    simp [List.flatMap_cons, hexToken, ih]

theorem hexSlots_blank (k : Nat) (r : List Char) :
    hexSlots k (List.replicate (3 * k) ' ' ++ r) = List.replicate k "   ".toList := by
  induction k with
  | zero => simp [hexSlots]
  | succ k ih =>
    rw [hexSlots, replicate_three]
    simp [ih, List.replicate_succ]

theorem takeWhile_tokens (g : List Byte) (k : Nat) :
    (g.map hexToken ++ List.replicate k "   ".toList).takeWhile (fun t => t ≠ "   ".toList)
      = g.map hexToken := by
  induction g with
  | nil =>
    cases k with
    | zero => simp
    | succ k => simp [List.replicate_succ, List.takeWhile]
  | cons b g ih =>
    have hb : decide (hexToken b ≠ "   ".toList) = true := by
      simpa using hexToken_ne_blank b
    rw [List.map_cons, List.cons_append,
      List.takeWhile_cons_of_pos (p := fun t => decide (t ≠ "   ".toList)) hb, ih]

theorem hexPortion_lineText (pc : Nat → Byte) (j m : Nat) (hm : m ≤ 16) :
    hexPortion (lineText pc j m) = (group pc j m).flatMap hexToken := by
  unfold hexPortion
  rw [afterOffset_lineText, lineBody, hexPart_eq]
  have e : (group pc j m).length + (16 - m) = 16 := by simp; omega
  have key := hexSlots_tokens (group pc j m) (16 - m)
    (List.replicate (3 * (16 - m)) ' ' ++ ("  ".toList ++ asciiPart (group pc j m)))
  rw [e] at key
  rw [key, hexSlots_blank, takeWhile_tokens]
  simp [List.flatMap]

theorem asciiStart_lineText (pc : Nat → Byte) (j m : Nat) :
    asciiStart (lineText pc j m) = 53 + (fmtHex 4 (16 * j)).length := by
  unfold asciiStart
  rw [offsetField_lineText]
  omega

theorem asciiColumn_lineText (pc : Nat → Byte) (j m : Nat) (hm : m ≤ 16) :
    asciiColumn (lineText pc j m) = (group pc j m).map asciiChar := by
  unfold asciiColumn
  rw [asciiStart_lineText, ← asciiPart_eq]
  have e : lineText pc j m =
      (lineHead j ++ hexPart (group pc j m) ++ List.replicate (3 * (16 - m)) ' ' ++ "  ".toList)
        ++ asciiPart (group pc j m) := by
    simp [lineText, lineBody]
  rw [e]
  apply List.drop_left'
  simp [lineHead, hexPart_length]
  omega

/-! ## Groups of a buffer -/

theorem dataGroup_length (data : List Byte) (n j : Nat) (hn : n ≤ data.length) :
    (dataGroup data n j).length = groupLen n j := by
  simp [dataGroup, groupLen, Nat.min_eq_left hn]

theorem dataGroup_getElem? (data : List Byte) (n j k : Nat) (hk : k < 16)
    (h : 16 * j + k < n) : (dataGroup data n j)[k]? = data[16 * j + k]? := by
  simp [dataGroup, List.getElem?_take, hk, h]

theorem bufBytes_lt (data : List Byte) (beyond : Nat → Option Byte) (i : Nat)
    (h : i < data.length) : bufBytes data beyond i = data.get ⟨i, h⟩ := by
  simp [bufBytes, memBytes, bufMem, h]

theorem bufMem_isSome (data : List Byte) (beyond : Nat → Option Byte) (n : Nat)
    (hn : n ≤ data.length) : ∀ i, i < n → (bufMem data beyond i).isSome = true := by
  intro i hi
  have h : i < data.length := by omega
  simp [bufMem, h]

theorem group_bufMem (data : List Byte) (beyond : Nat → Option Byte) (n j : Nat)
    (hn : n ≤ data.length) :
    group (bufBytes data beyond) j (groupLen n j) = dataGroup data n j := by
  apply List.ext_getElem?
  intro k
  by_cases hk : k < groupLen n j
  · have hk1 : k < 16 ∧ 16 * j + k < n := by unfold groupLen at hk; omega
    have hd : 16 * j + k < data.length := by omega
    rw [dataGroup_getElem? data n j k hk1.1 hk1.2]
    simp [group, hk, bufBytes_lt data beyond _ hd, hd]
  · rw [List.getElem?_eq_none (by simpa using hk),
      List.getElem?_eq_none (by rw [dataGroup_length data n j hn]; omega)]

theorem dumpLines_getElem? (pc : Nat → Byte) (n j : Nat) (hj : 16 * j < n) :
    (dumpLines pc n)[j]? = some (lineText pc j (groupLen n j)) := by
  have h : j < numLines n := by unfold numLines; omega
  simp [dumpLines, h]

/-- The lines printed for `n` bytes at a buffer, `0 < n`, when they are
readable. -/
theorem hexDump_lines (data : List Byte) (beyond : Nat → Option Byte) (n : Nat) (h0 : 0 < n)
    (hread : ∀ i, i < n → (bufMem data beyond i).isSome = true) :
    ∃ s, hexDump none (bufMem data beyond) (n : Int) = some s
      ∧ s.out = dumpText (bufBytes data beyond) n
      ∧ splitLines s.out = dumpLines (bufBytes data beyond) n
      ∧ s.reads = List.range n := by
  obtain ⟨s, hs, hout, hreads, _⟩ := hexDump_readable none (bufMem data beyond) n h0 hread
  have hout1 : s.out = dumpText (bufBytes data beyond) n := by simpa [labelText] using hout
  refine ⟨s, hs, hout1, ?_, hreads⟩
  rw [hout1]
  exact splitLines_dumpText (bufBytes data beyond) n

theorem groupLen_le (n j : Nat) : groupLen n j ≤ 16 := by
  unfold groupLen; omega

/-! ## Decoding the hex portions -/

set_option maxRecDepth 100000 in
theorem hexVal_digits : ∀ b : Byte,
    hexVal (lowerHexDigit (b.val / 16)) = some (b.val / 16)
      ∧ hexVal (lowerHexDigit (b.val % 16)) = some (b.val % 16) := by
  decide

theorem decodeTokens_token (b : Byte) (rest : List Char) (bs : List Byte)
    (h : decodeTokens rest = some bs) :
    decodeTokens (hexToken b ++ rest) = some (b :: bs) := by
  have hv := hexVal_digits b
  have hb : (⟨(16 * (b.val / 16) + b.val % 16) % 256, Nat.mod_lt _ (by decide)⟩ : Byte) = b := by
    apply Fin.ext
    have := b.isLt
    simp only
    omega
  have e : hexToken b ++ rest
      = ' ' :: lowerHexDigit (b.val / 16) :: lowerHexDigit (b.val % 16) :: rest := rfl
  rw [e, decodeTokens, hv.1, hv.2, h]
  simp only [Option.some.injEq, List.cons.injEq, and_true]
  exact hb

theorem decodeTokens_group (g : List Byte) : decodeTokens (g.flatMap hexToken) = some g := by
  induction g with
  | nil => simp [decodeTokens]
  | cons b g ih =>
    rw [List.flatMap_cons]
    exact decodeTokens_token b _ g ih

theorem decodeLines_lineText (pc : Nat → Byte) (n : Nat) (js : List Nat) :
    decodeLines (js.map (fun j => lineText pc j (groupLen n j)))
      = some (js.flatMap (fun j => group pc j (groupLen n j))) := by
  induction js with
  | nil => simp [decodeLines]
  | cons j js ih =>
    simp only [List.map_cons, decodeLines, hexPortion_lineText pc j _ (groupLen_le n j),
      decodeTokens_group, ih, List.flatMap_cons]

theorem full_groups (pc : Nat → Byte) (q : Nat) :
    (List.range q).flatMap (fun j => group pc j 16) = (List.range (16 * q)).map pc := by
  induction q with
  | zero => simp
  | succ q ih =>
    rw [range_flatMap_succ, ih, Nat.mul_succ, List.range_add, List.map_append]
    simp [group]

theorem all_groups (pc : Nat → Byte) (k : Nat) :
    (List.range (numLines (k + 1))).flatMap (fun j => group pc j (groupLen (k + 1) j))
      = (List.range (k + 1)).map pc := by
  have hn : numLines (k + 1) = k / 16 + 1 := by unfold numLines; omega
  have hlast : groupLen (k + 1) (k / 16) = k % 16 + 1 := by unfold groupLen; omega
  have hfull : (List.range (k / 16)).flatMap (fun j => group pc j (groupLen (k + 1) j))
      = (List.range (k / 16)).flatMap (fun j => group pc j 16) := by
    simp only [List.flatMap]
    congr 1
    apply List.map_congr_left
    intro j hj
    have hj1 : j < k / 16 := List.mem_range.mp hj
    have : groupLen (k + 1) j = 16 := by unfold groupLen; omega
    rw [this]
  have hk : k + 1 = 16 * (k / 16) + (k % 16 + 1) := by omega
  rw [hn, range_flatMap_succ, hfull, full_groups, hlast]
  conv_rhs => rw [hk, List.range_add, List.map_append]
  simp [group]

theorem map_bufMem (data : List Byte) (beyond : Nat → Option Byte) (n : Nat)
    (hn : n ≤ data.length) :
    (List.range n).map (bufBytes data beyond) = data.take n := by
  apply List.ext_getElem?
  intro k
  by_cases hk : k < n
  · have hd : k < data.length := by omega
    simp [hk, bufBytes_lt data beyond _ hd, hd, List.getElem?_take]
  · rw [List.getElem?_eq_none (by simpa using hk),
      List.getElem?_eq_none (by simp; omega)]

/-! ## The dump of a buffer (claims C1 to C5) -/

theorem line_of_group (data : List Byte) (beyond : Nat → Option Byte) (n j : Nat)
    (hn : n ≤ data.length) (hj : 16 * j < n) (s : DumpState)
    (hs : splitLines s.out = dumpLines (bufBytes data beyond) n) :
    (splitLines s.out)[j]? = some (lineText (bufBytes data beyond) j (groupLen n j))
      ∧ group (bufBytes data beyond) j (groupLen n j) = dataGroup data n j
      ∧ (dataGroup data n j).length = (if 16 * j + 16 ≤ n then 16 else n % 16) := by
  refine ⟨by rw [hs]; exact dumpLines_getElem? _ n j hj, group_bufMem data beyond n j hn, ?_⟩
  rw [dataGroup_length data n j hn]
  unfold groupLen
  split <;> omega

/-- C1: for `0 < n ≤ data.length`, the ASCII column of the line of group `j`
in the output of `hexDump(NULL, data, n)` has as many characters as the group
has bytes (16 for a full group, `n % 16` for a shorter last one), and its
`k`-th character is `'.'` when `data[16 * j + k]` is below `0x20` or above
`0x7e`, the byte's own character otherwise. -/
theorem hexDump_ascii_column (data : List Byte) (beyond : Nat → Option Byte) (n : Nat)
    (h0 : 0 < n) (hn : n ≤ data.length) :
    ∃ s, hexDump none (bufMem data beyond) (n : Int) = some s ∧
      ∀ j, 16 * j < n → ∃ line, (splitLines s.out)[j]? = some line
        ∧ (asciiColumn line).length = (if 16 * j + 16 ≤ n then 16 else n % 16)
        ∧ ∀ k, k < 16 → 16 * j + k < n →
            (asciiColumn line)[k]? = (data[16 * j + k]?).map asciiChar := by
  obtain ⟨s, hs, _, hlines, _⟩ := hexDump_lines data beyond n h0 (bufMem_isSome data beyond n hn)
  refine ⟨s, hs, fun j hj => ?_⟩
  obtain ⟨hline, hg, hlen⟩ := line_of_group data beyond n j hn hj s hlines
  have hcol := asciiColumn_lineText (bufBytes data beyond) j (groupLen n j) (groupLen_le n j)
  rw [hg] at hcol
  refine ⟨_, hline, ?_, ?_⟩
  · rw [hcol, List.length_map, hlen]
  · intro k hk hkn
    rw [hcol, List.getElem?_map, dataGroup_getElem? data n j k hk hkn]

/-- C1, witness: `data = [0x41, 0x00, 0x7f]`, `n = 3` gives the ASCII column
`"A.."`; `0x20` and `0x7e` are shown as themselves, `0x7f` as `'.'`. -/
theorem hexDump_ascii_column_witness :
    (hexDump none (bufMem [0x41, 0x00, 0x7f] (fun _ => none)) 3).map
        (fun s => (splitLines s.out).map asciiColumn) = some ["A..".toList]
      ∧ asciiChar 0x20 = ' ' ∧ asciiChar 0x7e = '~' ∧ asciiChar 0x7f = '.'
      ∧ ∃ s, hexDump none (bufMem [0x41, 0x00, 0x7f] (fun _ => none)) ((3 : Nat) : Int) = some s ∧
        ∀ j, 16 * j < 3 → ∃ line, (splitLines s.out)[j]? = some line
          ∧ (asciiColumn line).length = (if 16 * j + 16 ≤ 3 then 16 else 3 % 16)
          ∧ ∀ k, k < 16 → 16 * j + k < 3 →
              (asciiColumn line)[k]? = (([0x41, 0x00, 0x7f] : List Byte)[16 * j + k]?).map asciiChar :=
  ⟨by decide, by decide, by decide, by decide,
    hexDump_ascii_column [0x41, 0x00, 0x7f] (fun _ => none) 3 (by decide) (by decide)⟩

/-- C2: for `0 < n ≤ data.length`, the hex portion of line `j` of
`hexDump(NULL, data, n)` is exactly the bytes `data[16 * j .. min (16 * j + 16) n)`
in order, each written as one blank and two lowercase hexadecimal digits. -/
theorem hexDump_hex_portion (data : List Byte) (beyond : Nat → Option Byte) (n : Nat)
    (h0 : 0 < n) (hn : n ≤ data.length) :
    ∃ s, hexDump none (bufMem data beyond) (n : Int) = some s ∧
      ∀ j, 16 * j < n → ∃ line, (splitLines s.out)[j]? = some line
        ∧ hexPortion line = (dataGroup data n j).flatMap hexToken
        ∧ (dataGroup data n j).length = (if 16 * j + 16 ≤ n then 16 else n % 16)
        ∧ ∀ k, k < 16 → 16 * j + k < n → (dataGroup data n j)[k]? = data[16 * j + k]? := by
  obtain ⟨s, hs, _, hlines, _⟩ := hexDump_lines data beyond n h0 (bufMem_isSome data beyond n hn)
  refine ⟨s, hs, fun j hj => ?_⟩
  obtain ⟨hline, hg, hlen⟩ := line_of_group data beyond n j hn hj s hlines
  have hhex := hexPortion_lineText (bufBytes data beyond) j (groupLen n j) (groupLen_le n j)
  rw [hg] at hhex
  exact ⟨_, hline, hhex, hlen, fun k hk hkn => dataGroup_getElem? data n j k hk hkn⟩

/-- C2, witness: 17 bytes give a full first line and a second line with the
one hex code ` 10`. -/
theorem hexDump_hex_portion_witness :
    (hexDump none (bufMem ((List.range 17).map (fun i => (Fin.ofNat i : Byte))) (fun _ => none))
        17).map (fun s => (splitLines s.out).map hexPortion)
      = some [" 00 01 02 03 04 05 06 07 08 09 0a 0b 0c 0d 0e 0f".toList, " 10".toList]
    ∧ ∃ s, hexDump none
          (bufMem ((List.range 17).map (fun i => (Fin.ofNat i : Byte))) (fun _ => none))
          ((17 : Nat) : Int) = some s ∧
        ∀ j, 16 * j < 17 → ∃ line, (splitLines s.out)[j]? = some line
          ∧ hexPortion line
            = (dataGroup ((List.range 17).map (fun i => (Fin.ofNat i : Byte))) 17 j).flatMap hexToken
          ∧ (dataGroup ((List.range 17).map (fun i => (Fin.ofNat i : Byte))) 17 j).length
            = (if 16 * j + 16 ≤ 17 then 16 else 17 % 16)
          ∧ ∀ k, k < 16 → 16 * j + k < 17 →
              (dataGroup ((List.range 17).map (fun i => (Fin.ofNat i : Byte))) 17 j)[k]?
                = ((List.range 17).map (fun i => (Fin.ofNat i : Byte)))[16 * j + k]? :=
  ⟨by decide, hexDump_hex_portion _ (fun _ => none) 17 (by decide) (by decide)⟩

/-- C3: for `0 < n ≤ data.length`, `hexDump(NULL, data, n)` prints exactly
`ceil (n / 16)` lines, each ended by a line feed. -/
theorem hexDump_line_count (data : List Byte) (beyond : Nat → Option Byte) (n : Nat)
    (h0 : 0 < n) (hn : n ≤ data.length) :
    ∃ s, hexDump none (bufMem data beyond) (n : Int) = some s
      ∧ (splitLines s.out).length = (n + 15) / 16
      ∧ n ≤ 16 * (splitLines s.out).length ∧ 16 * (splitLines s.out).length < n + 16
      ∧ s.out = (splitLines s.out).flatMap (fun l => l ++ "\n".toList) := by
  obtain ⟨s, hs, hout, hlines, _⟩ := hexDump_lines data beyond n h0 (bufMem_isSome data beyond n hn)
  have hlen : (splitLines s.out).length = (n + 15) / 16 := by
    rw [hlines]; simp [dumpLines, numLines]
  refine ⟨s, hs, hlen, by omega, by omega, ?_⟩
  rw [hlines, hout, dumpText]

/-- C3, witness: 33 bytes give three lines. -/
theorem hexDump_line_count_witness :
    (hexDump none (bufMem (List.replicate 33 0x41) (fun _ => none)) 33).map
        (fun s => (splitLines s.out).length) = some 3
    ∧ ∃ s, hexDump none (bufMem (List.replicate 33 0x41) (fun _ => none)) ((33 : Nat) : Int) = some s
      ∧ (splitLines s.out).length = (33 + 15) / 16
      ∧ 33 ≤ 16 * (splitLines s.out).length ∧ 16 * (splitLines s.out).length < 33 + 16
      ∧ s.out = (splitLines s.out).flatMap (fun l => l ++ "\n".toList) :=
  ⟨by decide, hexDump_line_count (List.replicate 33 0x41) (fun _ => none) 33 (by decide) (by decide)⟩

/-- C4: for `0 < n ≤ data.length`, decoding the two-digit tokens of the hex
portion of every line of `hexDump(NULL, data, n)` and concatenating over the
lines gives back the first `n` bytes of `data`. -/
theorem hexDump_round_trip (data : List Byte) (beyond : Nat → Option Byte) (n : Nat)
    (h0 : 0 < n) (hn : n ≤ data.length) :
    ∃ s, hexDump none (bufMem data beyond) (n : Int) = some s
      ∧ decodeLines (splitLines s.out) = some (data.take n) := by
  obtain ⟨s, hs, _, hlines, _⟩ := hexDump_lines data beyond n h0 (bufMem_isSome data beyond n hn)
  refine ⟨s, hs, ?_⟩
  obtain ⟨k, rfl⟩ : ∃ k, n = k + 1 := ⟨n - 1, by omega⟩
  rw [hlines, dumpLines, decodeLines_lineText, all_groups, map_bufMem data beyond (k + 1) hn]

/-- C4, witness: the dump of the first 3 of 4 bytes decodes to those 3 bytes. -/
theorem hexDump_round_trip_witness :
    (hexDump none (bufMem [0x41, 0x00, 0x7f, 0xff] (fun _ => none)) 3).bind
        (fun s => decodeLines (splitLines s.out)) = some [0x41, 0x00, 0x7f]
    ∧ ∃ s, hexDump none (bufMem [0x41, 0x00, 0x7f, 0xff] (fun _ => none)) ((3 : Nat) : Int) = some s
      ∧ decodeLines (splitLines s.out) = some (([0x41, 0x00, 0x7f, 0xff] : List Byte).take 3) :=
  ⟨by decide, hexDump_round_trip [0x41, 0x00, 0x7f, 0xff] (fun _ => none) 3 (by decide) (by decide)⟩

theorem fmtHex_four_length (v : Nat) (hv : v < 65536) : (fmtHex 4 v).length = 4 := by
  have h : (Nat.toDigits 16 v).length ≤ 4 :=
    Nat.toDigitsCore_length 16 (by decide) (v + 1) v 4 (by simpa using hv) (by decide)
  simp only [fmtHex, zeroPad, List.length_append, List.length_replicate]
  omega

theorem lineText_layout (pc : Nat → Byte) (j m : Nat) (hm : m ≤ 16)
    (hw : (fmtHex 4 (16 * j)).length = 4) :
    asciiStart (lineText pc j m) = 57
      ∧ (lineText pc j m).drop 57 = (group pc j m).map asciiChar
      ∧ ((lineText pc j m).take 55).drop 7
          = (group pc j m).flatMap hexToken ++ List.replicate (3 * (16 - m)) ' ' := by
  have hs : asciiStart (lineText pc j m) = 57 := by rw [asciiStart_lineText, hw]
  refine ⟨hs, ?_, ?_⟩
  · have := asciiColumn_lineText pc j m hm
    rwa [asciiColumn, hs] at this
  · have e : lineText pc j m = lineHead j
        ++ ((hexPart (group pc j m) ++ List.replicate (3 * (16 - m)) ' ')
          ++ ("  ".toList ++ asciiPart (group pc j m))) := by
      simp [lineText, lineBody]
    have h7 : (lineHead j).length = 7 := by simp [lineHead, hw]
    have h48 : (hexPart (group pc j m) ++ List.replicate (3 * (16 - m)) ' ').length = 48 := by
      simp [hexPart_length]; omega
    rw [e, ← hexPart_eq, List.drop_take, List.drop_left' h7]
    exact List.take_left' h48

/-- C5, as the code has it: while every offset fits in four hexadecimal
digits (`n ≤ 0x10000`), the ASCII column starts at position 57 of every line
of `hexDump(NULL, data, n)`; the 48 characters before its two separating
blanks are the hex codes of the group followed by three blanks for each byte
missing from a short last group. -/
theorem hexDump_ascii_aligned (data : List Byte) (beyond : Nat → Option Byte) (n : Nat)
    (h0 : 0 < n) (hn : n ≤ data.length) (hsmall : n ≤ 65536) :
    ∃ s, hexDump none (bufMem data beyond) (n : Int) = some s ∧
      ∀ j, 16 * j < n → ∃ line, (splitLines s.out)[j]? = some line
        ∧ asciiStart line = 57
        ∧ line.drop 57 = (dataGroup data n j).map asciiChar
        ∧ (line.take 55).drop 7 = (dataGroup data n j).flatMap hexToken
            ++ List.replicate (3 * (16 - (dataGroup data n j).length)) ' ' := by
  obtain ⟨s, hs, _, hlines, _⟩ := hexDump_lines data beyond n h0 (bufMem_isSome data beyond n hn)
  refine ⟨s, hs, fun j hj => ?_⟩
  obtain ⟨hline, hg, _⟩ := line_of_group data beyond n j hn hj s hlines
  have hl := lineText_layout (bufBytes data beyond) j (groupLen n j) (groupLen_le n j)
    (fmtHex_four_length _ (by omega))
  rw [hg] at hl
  refine ⟨_, hline, hl.1, hl.2.1, ?_⟩
  rw [hl.2.2, dataGroup_length data n j hn]

/-- C5 as amended, witness: 18 bytes; the second line has two hex codes and
fourteen blank slots, and both ASCII columns start at position 57. -/
theorem hexDump_ascii_aligned_witness :
    (hexDump none (bufMem (List.replicate 18 0x41) (fun _ => none)) 18).map
        (fun s => (splitLines s.out).map String.mk)
      = some ["  0000  41 41 41 41 41 41 41 41 41 41 41 41 41 41 41 41  AAAAAAAAAAAAAAAA",
              "  0010  41 41                                            AA"]
    ∧ ∃ s, hexDump none (bufMem (List.replicate 18 0x41) (fun _ => none)) ((18 : Nat) : Int) = some s ∧
      ∀ j, 16 * j < 18 → ∃ line, (splitLines s.out)[j]? = some line
        ∧ asciiStart line = 57
        ∧ line.drop 57 = (dataGroup (List.replicate 18 0x41) 18 j).map asciiChar
        ∧ (line.take 55).drop 7 = (dataGroup (List.replicate 18 0x41) 18 j).flatMap hexToken
            ++ List.replicate (3 * (16 - (dataGroup (List.replicate 18 0x41) 18 j).length)) ' ' :=
  ⟨by decide, hexDump_ascii_aligned (List.replicate 18 0x41) (fun _ => none) 18
    (by decide) (by simp) (by decide)⟩

theorem group_zeros (N j m : Nat) :
    group (bufBytes (List.replicate N 0) (fun _ => none)) j m = List.replicate m 0 := by
  have hmem : ∀ i, bufBytes (List.replicate N 0) (fun _ => none) i = 0 := by
    intro i
    unfold bufBytes memBytes bufMem
    split
    · simp
    · rfl
  apply List.ext_getElem?
  intro k
  by_cases hk : k < m
  · simp [group, hk, hmem, List.getElem?_replicate]
  · rw [List.getElem?_eq_none (by simpa using hk), List.getElem?_eq_none (by simpa using hk)]

/-- C5 fails as stated: in the dump of 65537 zero bytes the first line has its
ASCII column at position 57, the line of offset `0x10000` at position 58. -/
theorem hexDump_ascii_alignment_counterexample :
    (List.replicate 65537 (0 : Byte)).length = 65537
    ∧ ∃ s, hexDump none (bufMem (List.replicate 65537 0) (fun _ => none)) 65537 = some s
      ∧ (splitLines s.out)[0]? = some
          "  0000  00 00 00 00 00 00 00 00 00 00 00 00 00 00 00 00  ................".toList
      ∧ (splitLines s.out)[4096]? = some
          "  10000  00                                               .".toList
      ∧ asciiStart
          "  0000  00 00 00 00 00 00 00 00 00 00 00 00 00 00 00 00  ................".toList = 57
      ∧ asciiStart "  10000  00                                               .".toList = 58 := by
  obtain ⟨s, hs, _, hlines, _⟩ := hexDump_lines (List.replicate 65537 0) (fun _ => none) 65537
    (by decide) (bufMem_isSome _ _ 65537 (by rw [List.length_replicate]))
  have hgrp := group_zeros 65537
  refine ⟨List.length_replicate _ _, s, hs, ?_, ?_, by decide, by decide⟩
  · rw [hlines, dumpLines_getElem? _ 65537 0 (by decide)]
    have e : groupLen 65537 0 = 16 := by decide
    rw [e, lineText, lineBody, lineHead, hgrp]
    decide
  · rw [hlines, dumpLines_getElem? _ 65537 4096 (by decide)]
    have e : groupLen 65537 4096 = 1 := by decide
    rw [e, lineText, lineBody, lineHead, hgrp]
    decide

/-! ## Lengths outside the buffer, zero and negative lengths (claims C6 to C8) -/

theorem range_map_bufMem_past (data : List Byte) (beyond : Nat → Option Byte)
    (behind : Nat → Byte) (n : Nat) (hn : data.length ≤ n)
    (hread : ∀ i, data.length ≤ i → i < n → beyond i = some (behind i)) :
    (List.range n).map (bufBytes data beyond)
      = data ++ (List.range (n - data.length)).map (fun i => behind (data.length + i)) := by
  have e : n = data.length + (n - data.length) := by omega
  have h1 : (List.range (n - data.length)).map (fun i => bufBytes data beyond (data.length + i))
      = (List.range (n - data.length)).map (fun i => behind (data.length + i)) := by
    apply List.map_congr_left
    intro i hi
    have hi1 : i < n - data.length := List.mem_range.mp hi
    have hlt : ¬ (data.length + i < data.length) := by omega
    simp [bufBytes, memBytes, bufMem, hlt, hread (data.length + i) (by omega) (by omega)]
  conv_lhs => rw [e, List.range_add, List.map_append, map_bufMem data beyond _ (le_refl _)]
  rw [List.map_map, List.take_length]
  exact congrArg _ h1

theorem bufMem_isSome_past (data : List Byte) (beyond : Nat → Option Byte)
    (behind : Nat → Byte) (n : Nat)
    (hread : ∀ i, data.length ≤ i → i < n → beyond i = some (behind i)) :
    ∀ i, i < n → (bufMem data beyond i).isSome = true := by
  intro i hi
  by_cases h : i < data.length
  · simp [bufMem, h]
  · simp [bufMem, h, hread i (by omega) hi]

/-- C6, as the code has it: `hexDump` has no bounds check and no bounds-error
outcome.  For a requested length `n` greater than `data.length`, when the
`n - data.length` bytes that lie behind `data` in memory are readable, it
returns normally, having read the offsets `0, ..., n - 1` in order, those at
and beyond `data.length` included, and its lines show the bytes of `data`
followed by those bytes. -/
theorem hexDump_reads_past_buffer (data : List Byte) (beyond : Nat → Option Byte)
    (behind : Nat → Byte) (n : Nat) (hn : data.length < n)
    (hread : ∀ i, data.length ≤ i → i < n → beyond i = some (behind i)) :
    (∀ desc, ∃ s, hexDump desc (bufMem data beyond) (n : Int) = some s
        ∧ s.reads = List.range n ∧ data.length ∈ s.reads)
    ∧ ∃ s, hexDump none (bufMem data beyond) (n : Int) = some s
        ∧ decodeLines (splitLines s.out)
          = some (data ++ (List.range (n - data.length)).map (fun i => behind (data.length + i))) := by
  have hsome := bufMem_isSome_past data beyond behind n hread
  constructor
  · intro desc
    obtain ⟨s, hs, _, hreads, _⟩ := hexDump_readable desc (bufMem data beyond) n (by omega) hsome
    exact ⟨s, hs, hreads, by rw [hreads]; exact List.mem_range.mpr hn⟩
  · obtain ⟨s, hs, _, hlines, _⟩ := hexDump_lines data beyond n (by omega) hsome
    refine ⟨s, hs, ?_⟩
    obtain ⟨k, rfl⟩ : ∃ k, n = k + 1 := ⟨n - 1, by omega⟩
    rw [hlines, dumpLines, decodeLines_lineText, all_groups,
      range_map_bufMem_past data beyond behind (k + 1) (by omega) hread]

/-- C6 as amended, witness: one byte of data, two bytes requested, the byte
behind the buffer readable. -/
theorem hexDump_reads_past_buffer_witness :
    ([0x41] : List Byte).length < 2
    ∧ (∀ desc, ∃ s, hexDump desc (bufMem [0x41] (fun _ => some 0x42)) ((2 : Nat) : Int) = some s
        ∧ s.reads = List.range 2 ∧ ([0x41] : List Byte).length ∈ s.reads)
    ∧ ∃ s, hexDump none (bufMem [0x41] (fun _ => some 0x42)) ((2 : Nat) : Int) = some s
        ∧ decodeLines (splitLines s.out)
          = some ([0x41] ++ (List.range (2 - ([0x41] : List Byte).length)).map
              (fun i => (fun _ => (0x42 : Byte)) (([0x41] : List Byte).length + i))) :=
  ⟨by decide, hexDump_reads_past_buffer [0x41] (fun _ => some 0x42) (fun _ => 0x42) 2
    (by decide) (fun _ _ _ => rfl)⟩

/-- C6 fails as stated: with the one-byte buffer `[0x41]`, the readable byte
`0x42` behind it in memory and requested length 2, `hexDump` does not fail; it reads
offset 1, outside the buffer, and prints that byte. -/
theorem hexDump_bounds_counterexample :
    (hexDump none (bufMem [0x41] (fun _ => some 0x42)) 2).map (fun s => (s.out, s.reads))
      = some ("  0000  41 42                                            AB\n".toList, [0, 1])
    ∧ ([0x41] : List Byte).length = 1 := by
  decide

/-- C7, as the code has it: for requested length 0, whatever the memory, no
byte is read; without a label the output is the single line `  ZERO LENGTH`,
and with a label `d` it is the label line `d:` followed by that line. -/
theorem hexDump_zero_length (pc : Nat → Option Byte) (d : List Char) :
    hexDump none pc 0 = some
        { out := "  ZERO LENGTH\n".toList, buff := List.replicate 17 none, reads := [], writes := [] }
    ∧ splitLines "  ZERO LENGTH\n".toList = ["  ZERO LENGTH".toList]
    ∧ hexDump (some d) pc 0 = some
        { out := d ++ ":\n".toList ++ "  ZERO LENGTH\n".toList, buff := List.replicate 17 none,
          reads := [], writes := [] } :=
  ⟨rfl, by decide, rfl⟩

/-- C7 fails as stated: with the label `x` the output for length 0 has two
lines, the label line and the notice. -/
theorem hexDump_zero_length_counterexample :
    (hexDump (some "x".toList) (bufMem [] (fun _ => none)) 0).map (fun s => splitLines s.out)
      = some ["x:".toList, "  ZERO LENGTH".toList] := by
  decide

theorem digitChar_decimal (d : Nat) (hd : d < 10) :
    (Nat.digitChar d).toNat - '0'.toNat = d ∧ (Nat.digitChar d).isDigit = true := by
  interval_cases d <;> exact ⟨by decide, by decide⟩

theorem readNat_toDigitsCore (fuel n : Nat) (acc : List Char) (h : n < fuel) :
    (Nat.toDigitsCore 10 fuel n acc).foldl (fun a c => 10 * a + (c.toNat - '0'.toNat)) 0
      = acc.foldl (fun a c => 10 * a + (c.toNat - '0'.toNat)) n := by
  induction fuel generalizing n acc with
  | zero => omega
  | succ fuel ih =>
    have hd := (digitChar_decimal (n % 10) (Nat.mod_lt _ (by decide))).1
    simp only [Nat.toDigitsCore]
    split
    · rename_i h0
      have hn : n % 10 = n := by omega
      rw [hn] at hd
      simp only [List.foldl_cons, hn, hd, Nat.mul_zero, Nat.zero_add]
    · rename_i h0
      rw [ih (n / 10) _ (by omega)]
      simp only [List.foldl_cons, hd]
      congr 1
      omega

theorem readNat_toDigits (n : Nat) : readNat (Nat.toDigits 10 n) = n := by
  unfold readNat Nat.toDigits
  rw [readNat_toDigitsCore (n + 1) n [] (by omega)]
  rfl

theorem toDigits_decimal (n : Nat) : ∀ c ∈ Nat.toDigits 10 n, c.isDigit = true :=
  toDigitsCore_mem 10 (by decide) (fun c => c.isDigit = true)
    (fun d hd => (digitChar_decimal d hd).2) _ _ [] (by simp)

theorem fmtInt_neg (v : Int) (hv : v < 0) :
    fmtInt v = '-' :: Nat.toDigits 10 v.natAbs ∧ readInt (fmtInt v) = v := by
  have e : fmtInt v = '-' :: Nat.toDigits 10 v.natAbs := by simp [fmtInt, hv]
  refine ⟨e, ?_⟩
  rw [e, readInt, readNat_toDigits]
  omega

theorem hexDump_neg (pc : Nat → Option Byte) (v : Int) (hv : v < 0) :
    hexDump none pc v = some
      { out := "  NEGATIVE LENGTH: ".toList ++ fmtInt v ++ "\n".toList
        buff := List.replicate 17 none, reads := [], writes := [] } := by
  have h0 : v ≠ 0 := by omega
  simp [hexDump, h0, hv, DumpState.emit]

/-- C8: for every negative requested length `v` and every memory,
`hexDump(NULL, data, v)` prints exactly one line, `  NEGATIVE LENGTH: `
followed by `v` in signed decimal (a minus sign and decimal digits whose value
is `v`), and reads no byte; distinct negative values give distinct output. -/
theorem hexDump_negative_length (v : Int) (hv : v < 0) (pc : Nat → Option Byte) :
    ∃ s ds, hexDump none pc v = some s
      ∧ s.out = "  NEGATIVE LENGTH: ".toList ++ ('-' :: ds) ++ "\n".toList
      ∧ splitLines s.out = ["  NEGATIVE LENGTH: ".toList ++ ('-' :: ds)]
      ∧ (∀ c ∈ ds, c.isDigit = true) ∧ readInt ('-' :: ds) = v
      ∧ s.reads = []
      ∧ ∀ (w : Int) (pc2 : Nat → Option Byte), w < 0 → w ≠ v →
          (hexDump none pc2 w).map (fun t => t.out) ≠ some s.out := by
  obtain ⟨hfmt, hread⟩ := fmtInt_neg v hv
  have hdig := toDigits_decimal v.natAbs
  refine ⟨_, Nat.toDigits 10 v.natAbs, hexDump_neg pc v hv, by rw [hfmt], ?_, hdig,
    by rw [← hfmt]; exact hread, rfl, ?_⟩
  · have hnl : '\n' ∉ "  NEGATIVE LENGTH: ".toList ++ ('-' :: Nat.toDigits 10 v.natAbs) := by
      intro h
      rcases List.mem_append.mp h with h | h
      · revert h; decide
      · rcases List.mem_cons.mp h with h | h
        · revert h; decide
        · have := hdig _ h
          revert this; decide
    have := splitLines_line _ [] hnl
    simpa [hfmt, splitLines] using this
  · intro w pc2 hw hne heq
    rw [hexDump_neg pc2 w hw] at heq
    simp only [Option.map_some', Option.some.injEq] at heq
    have heq1 : "  NEGATIVE LENGTH: ".toList ++ fmtInt w ++ "\n".toList
        = "  NEGATIVE LENGTH: ".toList ++ fmtInt v ++ "\n".toList := heq
    have h1 : fmtInt w = fmtInt v :=
      List.append_cancel_left (List.append_cancel_right heq1)
    apply hne
    rw [← (fmtInt_neg w hw).2, h1, hread]

/-- C8, witness: length `-5` gives the line `  NEGATIVE LENGTH: -5`. -/
theorem hexDump_negative_length_witness :
    (hexDump none (bufMem [0x41] (fun _ => none)) (-5)).map (fun s => (s.out, s.reads))
      = some ("  NEGATIVE LENGTH: -5\n".toList, [])
    ∧ ∃ s ds, hexDump none (bufMem [0x41] (fun _ => none)) (-5) = some s
      ∧ s.out = "  NEGATIVE LENGTH: ".toList ++ ('-' :: ds) ++ "\n".toList
      ∧ splitLines s.out = ["  NEGATIVE LENGTH: ".toList ++ ('-' :: ds)]
      ∧ (∀ c ∈ ds, c.isDigit = true) ∧ readInt ('-' :: ds) = -5
      ∧ s.reads = []
      ∧ ∀ (w : Int) (pc2 : Nat → Option Byte), w < 0 → w ≠ -5 →
          (hexDump none pc2 w).map (fun t => t.out) ≠ some s.out :=
  ⟨by decide, hexDump_negative_length (-5) (by decide) (bufMem [0x41] (fun _ => none))⟩

/-! ## What the output depends on (claim C9) -/

theorem hexDumpStep_congr (pc1 pc2 : Nat → Option Byte) (i : Nat) (s : DumpState)
    (h : pc1 i = pc2 i) : hexDumpStep pc1 i s = hexDumpStep pc2 i s := by
  have e : storeByte pc1 i = storeByte pc2 i := by
    funext t
    simp only [storeByte, h]
  rw [hexDumpStep, hexDumpStep, e]

theorem hexDumpLoop_congr (pc1 pc2 : Nat → Option Byte) (s : DumpState) (k : Nat)
    (h : ∀ i, i < k → pc1 i = pc2 i) : hexDumpLoop pc1 s k = hexDumpLoop pc2 s k := by
  induction k with
  | zero => rfl
  | succ k ih =>
    rw [hexDumpLoop, hexDumpLoop, ih (fun i hi => h i (by omega))]
    congr 1
    funext t
    exact hexDumpStep_congr pc1 pc2 k t (h k (by omega))

theorem hexDump_congr (desc : Option (List Char)) (pc1 pc2 : Nat → Option Byte) (n : Int)
    (h : ∀ i : Nat, (i : Int) < n → pc1 i = pc2 i) :
    hexDump desc pc1 n = hexDump desc pc2 n := by
  have e : ∀ s, hexDumpLoop pc1 s n.toNat = hexDumpLoop pc2 s n.toNat :=
    fun s => hexDumpLoop_congr pc1 pc2 s n.toNat (fun i hi => h i (by omega))
  simp only [hexDump, e]

theorem bufMem_agree (data1 data2 : List Byte) (beyond1 beyond2 : Nat → Option Byte) (k i : Nat)
    (h1 : k ≤ data1.length) (h2 : k ≤ data2.length) (hagree : data1.take k = data2.take k)
    (hi : i < k) : bufMem data1 beyond1 i = bufMem data2 beyond2 i := by
  have e1 : i < data1.length := by omega
  have e2 : i < data2.length := by omega
  have e : (data1.take k)[i]? = (data2.take k)[i]? := by rw [hagree]
  simp only [List.getElem?_take, hi, if_true] at e
  rw [List.getElem?_eq_getElem e1, List.getElem?_eq_getElem e2, Option.some.injEq] at e
  simp only [bufMem, e1, e2, dif_pos, List.get_eq_getElem]
  exact congrArg some e

/-- C9: the result of `hexDump` is a function of the label, the requested
length `n` and the first `max n 0` bytes of `data`: two calls with the same
label and the same `n`, at most both buffers' lengths, on buffers that agree
on their first `n` bytes return the same output (any two buffers when
`n ≤ 0`), whatever lies behind the buffers, readable or not.  The memory is
an argument that is only read: the only writes of `hexDump` go to its own
array `buff`. -/
theorem hexDump_same_on_equal_bytes (desc : Option (List Char)) (n : Int)
    (data1 data2 : List Byte) (beyond1 beyond2 : Nat → Option Byte)
    (h1 : n ≤ data1.length) (h2 : n ≤ data2.length)
    (hagree : data1.take n.toNat = data2.take n.toNat) :
    hexDump desc (bufMem data1 beyond1) n = hexDump desc (bufMem data2 beyond2) n := by
  apply hexDump_congr
  intro i hi
  exact bufMem_agree data1 data2 beyond1 beyond2 n.toNat i (by omega) (by omega) hagree (by omega)

/-- C9, witness: two buffers that agree on their first two bytes, `n = 2`;
and two buffers that share nothing, `n = -1`. -/
theorem hexDump_same_on_equal_bytes_witness :
    hexDump (some "a".toList) (bufMem [0x41, 0x42, 0x01] (fun _ => none)) 2
        = hexDump (some "a".toList) (bufMem [0x41, 0x42, 0x02, 0x03] (fun _ => some 0xff)) 2
    ∧ hexDump none (bufMem [0x41] (fun _ => none)) (-1)
        = hexDump none (bufMem [] (fun _ => some 0xff)) (-1) :=
  ⟨hexDump_same_on_equal_bytes (some "a".toList) 2 [0x41, 0x42, 0x01] [0x41, 0x42, 0x02, 0x03]
      (fun _ => none) (fun _ => some 0xff) (by decide) (by decide) (by decide),
    hexDump_same_on_equal_bytes none (-1) [0x41] [] (fun _ => none) (fun _ => some 0xff)
      (by decide) (by decide) (by decide)⟩

/-! ## The driver loop -/

theorem readable_of_behind (r : Record) (h : ∀ i, (r.behind i).isSome = true) :
    r.readable := by
  intro i _
  unfold bufMem
  split
  · rfl
  · exact h i

theorem dumpBlock_eq (env : Env) (r : Record) (c : Nat) (hr : r.readable) :
    dumpBlock env r c = some (blockText env r c) := by
  obtain ⟨d, hd, hout, _⟩ :=
    hexDump_readable (some "my_str".toList) (bufMem r.hdr r.behind) 2560 (by omega) hr
  have hd1 : hexDump (some "my_str".toList) (bufMem r.hdr r.behind) 2560 = some d := hd
  rw [dumpBlock, hd1, Option.map_some', hout]
  rfl

theorem dumpBlock_unreadable (env : Env) (r : Record) (c k : Nat) (hk : k < 2560)
    (h : bufMem r.hdr r.behind k = none) : dumpBlock env r c = none := by
  have hd := hexDump_unreadable (some "my_str".toList) (bufMem r.hdr r.behind) 2560 k hk h
  have hd1 : hexDump (some "my_str".toList) (bufMem r.hdr r.behind) 2560 = none := hd
  rw [dumpBlock, hd1]
  rfl

theorem mainLoop_exit (env : Env) (f : Nat) (st : MainState)
    (h : ¬ ((pcap_next_ex st.src).1 = 1 ∧ st.counter ≤ 20)) :
    mainLoop env (f + 1) st = some
      { st with
        src := (pcap_next_ex st.src).2.2
        header := if (pcap_next_ex st.src).1 = 1 then (pcap_next_ex st.src).2.1 else st.header
        pulls := st.pulls + 1 } := by
  rw [mainLoop]
  exact if_neg h

/-- One pass through the loop body whose dump returns. -/
theorem mainLoop_pass (env : Env) (f : Nat) (st : MainState) (r : Record) (rest : List Pull)
    (text : List Char) (hsrc : st.src = Pull.packet r :: rest) (hc : st.counter ≤ 20)
    (hd : dumpBlock env r st.counter = some text) :
    mainLoop env (f + 1) st = mainLoop env f
      { src := rest, counter := st.counter + 1, header := some r, out := st.out ++ text
        pulls := st.pulls + 1, requests := st.requests ++ [(r.hdr, 2560)] } := by
  rw [mainLoop]
  simp only [hsrc, pcap_next_ex, hc, and_self, if_true, hd, Option.some_bind]

/-- A pass through the loop body whose dump is undefined ends the run. -/
theorem mainLoop_cut (env : Env) (f : Nat) (st : MainState) (r : Record) (rest : List Pull)
    (hsrc : st.src = Pull.packet r :: rest) (hc : st.counter ≤ 20)
    (hd : dumpBlock env r st.counter = none) :
    mainLoop env (f + 1) st = none := by
  rw [mainLoop]
  simp only [hsrc, pcap_next_ex, hc, and_self, if_true, hd, Option.some_bind, Option.none_bind]

theorem leadingRecords_packets (recs : List Record) :
    leadingRecords (recs.map Pull.packet) = recs := by
  induction recs with
  | nil => rfl
  | cons r rs ih => simp only [List.map_cons, leadingRecords, ih]

theorem leadingRecords_error (recs : List Record) (rest : List Pull) :
    leadingRecords (recs.map Pull.packet ++ Pull.error :: rest) = recs := by
  induction recs with
  | nil => rfl
  | cons r rs ih =>
    rw [List.map_cons, List.cons_append, leadingRecords, ih]

theorem mainLoop_run (env : Env) (src : List Pull) :
    ∀ (fuel c : Nat) (st : MainState), st.src = src → st.counter = c →
      c ≤ 21 → 22 ≤ fuel + c →
      (∀ r ∈ (leadingRecords src).take (21 - c), r.readable) →
      ∃ st1, mainLoop env fuel st = some st1
        ∧ st1.out = st.out ++ blockTexts env c ((leadingRecords src).take (21 - c))
        ∧ st1.requests = st.requests
            ++ ((leadingRecords src).take (21 - c)).map (fun r => (r.hdr, 2560))
        ∧ st1.pulls = st.pulls + min (leadingRecords src).length (21 - c) + 1 := by
  induction src with
  | nil =>
    intro fuel c st hsrc hc hc21 hfuel _
    obtain ⟨f, rfl⟩ : ∃ f, fuel = f + 1 := ⟨fuel - 1, by omega⟩
    have hx : ¬ ((pcap_next_ex st.src).1 = 1 ∧ st.counter ≤ 20) := by
      rw [hsrc]; simp [pcap_next_ex]
    refine ⟨_, mainLoop_exit env f st hx, ?_, ?_, ?_⟩ <;> simp [leadingRecords, blockTexts]
  | cons p rest ih =>
    intro fuel c st hsrc hc hc21 hfuel hread
    obtain ⟨f, rfl⟩ : ∃ f, fuel = f + 1 := ⟨fuel - 1, by omega⟩
    cases p with
    | error =>
      have hx : ¬ ((pcap_next_ex st.src).1 = 1 ∧ st.counter ≤ 20) := by
        rw [hsrc]; simp [pcap_next_ex]
      refine ⟨_, mainLoop_exit env f st hx, ?_, ?_, ?_⟩ <;> simp [leadingRecords, blockTexts]
    | packet r =>
      by_cases hlt : c ≤ 20
      · have e : 21 - c = (21 - (c + 1)) + 1 := by omega
        rw [leadingRecords, e, List.take_succ_cons] at hread
        have hr : r.readable := hread r (by simp)
        obtain ⟨st1, hloop, hout, hreq, hpulls⟩ := ih f (c + 1)
          { src := rest, counter := c + 1, header := some r
            out := st.out ++ blockText env r c
            pulls := st.pulls + 1, requests := st.requests ++ [(r.hdr, 2560)] }
          rfl rfl (by omega) (by omega) (fun t ht => hread t (List.mem_cons_of_mem r ht))
        refine ⟨st1, ?_, ?_, ?_, ?_⟩
        · rw [mainLoop_pass env f st r rest (blockText env r c) hsrc (by omega)
            (by rw [hc]; exact dumpBlock_eq env r c hr), hc]
          exact hloop
        · rw [hout, leadingRecords, e, List.take_succ_cons, blockTexts]; simp
        · rw [hreq, leadingRecords, e, List.take_succ_cons]; simp
        · rw [hpulls, leadingRecords]; simp only [List.length_cons]; omega
      · have hc1 : c = 21 := by omega
        subst hc1
        have hx : ¬ ((pcap_next_ex st.src).1 = 1 ∧ st.counter ≤ 20) := by
          rw [hc]; simp
        refine ⟨_, mainLoop_exit env f st hx, ?_, ?_, ?_⟩ <;> simp [blockTexts]

/-- What `main` does with an opened capture source when the memory that its
dumps read is readable. -/
theorem main_run (env : Env) (src : List Pull)
    (hread : ∀ r ∈ (leadingRecords src).take 20, r.readable) :
    ∃ res, main env (Except.ok src) = some res
      ∧ res.exit = 0
      ∧ res.out = blockTexts env 1 ((leadingRecords src).take 20)
      ∧ res.requests = ((leadingRecords src).take 20).map (fun r => (r.hdr, 2560))
      ∧ res.pulls = min (leadingRecords src).length 20 + 1 := by
  obtain ⟨st1, hloop, hout, hreq, hpulls⟩ := mainLoop_run env src 21 1
    { src := src, counter := 1, header := none, out := [], pulls := 0, requests := [] }
    rfl rfl (by omega) (by omega) hread
  refine ⟨_, by rw [main, hloop]; rfl, rfl, ?_, ?_, ?_⟩
  · simpa using hout
  · simpa using hreq
  · simpa using hpulls

theorem blockTexts_append (env : Env) (c : Nat) (a b : List Record) :
    blockTexts env c (a ++ b) = blockTexts env c a ++ blockTexts env (c + a.length) b := by
  induction a generalizing c with
  | nil => simp [blockTexts]
  | cons r a ih =>
    have e : c + (r :: a).length = c + 1 + a.length := by simp; omega
    rw [List.cons_append, blockTexts, blockTexts, ih, e, List.append_assoc]

theorem blockTexts_end (env : Env) (recs : List Record) :
    (recs = [] ∧ blockTexts env 1 recs = [])
      ∨ ∃ pre, blockTexts env 1 recs = pre ++ packetLine env recs.length := by
  rcases List.eq_nil_or_concat recs with h | ⟨a, r, h⟩
  · exact Or.inl ⟨h, by rw [h]; rfl⟩
  · right
    rw [List.concat_eq_append] at h
    subst h
    refine ⟨blockTexts env 1 a ++ ("my_str:\n".toList ++ dumpText (bufBytes r.hdr r.behind) 2560), ?_⟩
    have e : (a ++ [r]).length = 1 + a.length := by simp; omega
    rw [blockTexts_append, e, blockTexts, blockTexts, blockText]
    simp

theorem take_readable (l : List Record) (n : Nat)
    (h : ∀ r ∈ l, ∀ i, (r.behind i).isSome = true) : ∀ r ∈ l.take n, r.readable :=
  fun r hr => readable_of_behind r (h r (List.mem_of_mem_take hr))

/-! ## The driver when a dump reads memory that is not readable (claims C10 and C17) -/

/-- C10, the code at the failing input: one record whose `header` holds 24
bytes, with the memory behind it readable up to offset 1151 and not readable
from offset 1152 on.  The dump of the first pass reaches offset 1152 and is
undefined there, so the run is cut inside the first block and `main` does not
return; had the 2560 bytes been readable, the record would have been
processed. -/
theorem main_first_dump_cut :
    bufMem (List.replicate 24 0) (fun i => if i < 1152 then some 0 else none) 1152 = none
    ∧ hexDump (some "my_str".toList)
        (bufMem (List.replicate 24 0) (fun i => if i < 1152 then some 0 else none)) 2560 = none
    ∧ main ⟨'d', 's', 24⟩
        (Except.ok [Pull.packet ⟨List.replicate 24 0, fun i => if i < 1152 then some 0 else none⟩])
        = none
    ∧ ∃ res, main ⟨'d', 's', 24⟩
          (Except.ok [Pull.packet ⟨List.replicate 24 0, fun _ => some 0⟩]) = some res
        ∧ res.requests.length = 1 := by
  have hbad : bufMem (List.replicate 24 0) (fun i => if i < 1152 then some 0 else none) 1152
      = none := by decide
  have hdump := hexDump_unreadable (some "my_str".toList)
    (bufMem (List.replicate 24 0) (fun i => if i < 1152 then some 0 else none)) 2560 1152
    (by omega) hbad
  refine ⟨hbad, hdump, ?_, ?_⟩
  · have hcut := mainLoop_cut ⟨'d', 's', 24⟩ 20
      { src := [Pull.packet ⟨List.replicate 24 0, fun i => if i < 1152 then some 0 else none⟩]
        counter := 1, header := none, out := [], pulls := 0, requests := [] }
      ⟨List.replicate 24 0, fun i => if i < 1152 then some 0 else none⟩ [] rfl (by decide)
      (dumpBlock_unreadable _ _ _ 1152 (by omega) hbad)
    rw [main, hcut]
    rfl
  · obtain ⟨res, h, _, _, hreq, _⟩ := main_run ⟨'d', 's', 24⟩
      [Pull.packet ⟨List.replicate 24 0, fun _ => some 0⟩]
      (take_readable _ 20 (by intro r hr i; simp [leadingRecords] at hr; subst hr; rfl))
    exact ⟨res, h, by rw [hreq]; rfl⟩

/-- C17, the code at the failing input: one record whose `header` holds 24
bytes, with the memory behind it not readable from offset 1152 on.  The loop
is cut in its first pass, after the first call of `pcap_next_ex`, whatever the
fuel: the second call never happens.  With the 2560 bytes readable the same
container gives two calls. -/
theorem mainLoop_cut_after_first_pull :
    (∀ f, mainLoop ⟨'d', 's', 24⟩ (f + 1)
        { src := [Pull.packet ⟨List.replicate 24 0, fun i => if i < 1152 then some 0 else none⟩]
          counter := 1, header := none, out := [], pulls := 0, requests := [] } = none)
    ∧ ∃ res, main ⟨'d', 's', 24⟩
          (Except.ok [Pull.packet ⟨List.replicate 24 0, fun _ => some 0⟩]) = some res
        ∧ res.pulls = 2 := by
  constructor
  · intro f
    exact mainLoop_cut ⟨'d', 's', 24⟩ f _
      ⟨List.replicate 24 0, fun i => if i < 1152 then some 0 else none⟩ [] rfl (by decide)
      (dumpBlock_unreadable _ _ _ 1152 (by omega) (by decide))
  · obtain ⟨res, h, _, _, _, hpulls⟩ := main_run ⟨'d', 's', 24⟩
      [Pull.packet ⟨List.replicate 24 0, fun _ => some 0⟩]
      (take_readable _ 20 (by intro r hr i; simp [leadingRecords] at hr; subst hr; rfl))
    exact ⟨res, h, by rw [hpulls]; rfl⟩

/-! ## Exit status and output of the driver (claims C11 and C12) -/

/-- C11, as the code has it: the exit status of `main` is 1 when opening the
capture file fails.  When the file was opened and the memory that the dumps
read is readable, `main` returns 0 however the loop ends: at the end of the
file, after 20 records, or at a read error; after a read error that follows
the records `recs`, `stdout` still holds the blocks of the records processed
before it. -/
theorem main_exit_status (env : Env) (msg : List Char) (src : List Pull)
    (recs : List Record) (rest : List Pull)
    (hsrc : ∀ r ∈ (leadingRecords src).take 20, r.readable)
    (hrecs : ∀ r ∈ recs.take 20, r.readable) :
    (∃ res, main env (Except.error msg) = some res ∧ res.exit = 1 ∧ res.out = [])
    ∧ (∃ res, main env (Except.ok src) = some res ∧ res.exit = 0)
    ∧ (∃ res, main env (Except.ok (recs.map Pull.packet ++ Pull.error :: rest)) = some res
        ∧ res.exit = 0 ∧ res.out = blockTexts env 1 (recs.take 20)) := by
  refine ⟨⟨_, rfl, rfl, rfl⟩, ?_, ?_⟩
  · obtain ⟨res, h, hexit, _⟩ := main_run env src hsrc
    exact ⟨res, h, hexit⟩
  · obtain ⟨res, h, hexit, hout, _⟩ :=
      main_run env (recs.map Pull.packet ++ Pull.error :: rest)
        (by rw [leadingRecords_error]; exact hrecs)
    rw [leadingRecords_error] at hout
    exact ⟨res, h, hexit, hout⟩

/-- C11 as amended, witness: one record, then a read error, the memory behind
`header` readable. -/
theorem main_exit_status_witness :
    (∃ res, main ⟨'d', 's', 24⟩ (Except.error "no file".toList) = some res
        ∧ res.exit = 1 ∧ res.out = [])
    ∧ (∃ res, main ⟨'d', 's', 24⟩
          (Except.ok [Pull.packet ⟨List.replicate 24 0, fun _ => some 0⟩, Pull.error]) = some res
        ∧ res.exit = 0)
    ∧ (∃ res, main ⟨'d', 's', 24⟩
          (Except.ok (([⟨List.replicate 24 0, fun _ => some 0⟩] : List Record).map Pull.packet
            ++ Pull.error :: [])) = some res
        ∧ res.exit = 0
        ∧ res.out = blockTexts ⟨'d', 's', 24⟩ 1
            (([⟨List.replicate 24 0, fun _ => some 0⟩] : List Record).take 20)) :=
  main_exit_status ⟨'d', 's', 24⟩ "no file".toList
    [Pull.packet ⟨List.replicate 24 0, fun _ => some 0⟩, Pull.error]
    [⟨List.replicate 24 0, fun _ => some 0⟩] []
    (take_readable _ 20 (by intro r hr i; simp [leadingRecords] at hr; subst hr; rfl))
    (take_readable _ 20 (by intro r hr i; simp at hr; subst hr; rfl))

/-- C11 fails as stated: when the first pull delivers a record and the second
one fails with a read error, `main` stops after the second pull and returns 0. -/
theorem main_read_error_counterexample :
    ∃ res, main ⟨'d', 's', 24⟩
        (Except.ok [Pull.packet ⟨List.replicate 24 0, fun _ => some 0⟩, Pull.error]) = some res
      ∧ res.exit = 0 ∧ res.pulls = 2 ∧ res.requests.length = 1 := by
  obtain ⟨res, h, hexit, _, hreq, hpulls⟩ := main_run ⟨'d', 's', 24⟩
    [Pull.packet ⟨List.replicate 24 0, fun _ => some 0⟩, Pull.error]
    (take_readable _ 20 (by intro r hr i; simp [leadingRecords] at hr; subst hr; rfl))
  refine ⟨res, h, hexit, ?_, ?_⟩
  · rw [hpulls]; rfl
  · rw [hreq]; rfl

/-- C12, as the code has it: for `k ≤ 20` records read without error, when
the memory that the dumps read is readable, `main` returns 0 and `stdout`
consists of exactly `k` blocks, one per record in order: what the dump call of
the loop body prints for the record (the label line `my_str:` and the dump
lines), then the line `<c> = <c>     udp packet n: <i> <sizeof(header)>` with
the number `i` of the record, counted from 1.  Nothing follows the last block:
the output is empty for `k = 0` and ends with the `printf` line of record `k`
otherwise. -/
theorem main_output_blocks (env : Env) (recs : List Record) (hk : recs.length ≤ 20)
    (hread : ∀ r ∈ recs, r.readable) :
    (∃ res, main env (Except.ok (recs.map Pull.packet)) = some res
      ∧ res.exit = 0
      ∧ res.out = blockTexts env 1 recs
      ∧ ((recs = [] ∧ res.out = []) ∨ ∃ pre, res.out = pre ++ packetLine env recs.length))
    ∧ ∀ r ∈ recs, ∀ (c : Nat), ∃ d,
        hexDump (some "my_str".toList) (bufMem r.hdr r.behind) 2560 = some d
          ∧ blockText env r c = d.out ++ packetLine env c := by
  constructor
  · obtain ⟨res, h, hexit, hout, _⟩ := main_run env (recs.map Pull.packet)
      (by rw [leadingRecords_packets]; exact fun r hr => hread r (List.mem_of_mem_take hr))
    rw [leadingRecords_packets, List.take_of_length_le hk] at hout
    refine ⟨res, h, hexit, hout, ?_⟩
    rw [hout]
    exact blockTexts_end env recs
  · intro r hr c
    obtain ⟨d, hd, hout, _⟩ :=
      hexDump_readable (some "my_str".toList) (bufMem r.hdr r.behind) 2560 (by omega)
        (hread r hr)
    exact ⟨d, hd, by rw [hout]; rfl⟩

/-- C12 as amended, witness: three records give three blocks, the last one
ending with the line of record 3. -/
theorem main_output_blocks_witness :
    ([⟨List.replicate 24 0, fun _ => some 0⟩, ⟨List.replicate 24 1, fun _ => some 0⟩,
        ⟨List.replicate 24 2, fun _ => some 0⟩] : List Record).length ≤ 20
    ∧ packetLine ⟨'d', 's', 24⟩ 3 = "d = s     udp packet n: 3 24\n".toList
    ∧ ∃ res, main ⟨'d', 's', 24⟩ (Except.ok
          ([⟨List.replicate 24 0, fun _ => some 0⟩, ⟨List.replicate 24 1, fun _ => some 0⟩,
            ⟨List.replicate 24 2, fun _ => some 0⟩].map Pull.packet)) = some res
        ∧ res.exit = 0
        ∧ res.out = blockTexts ⟨'d', 's', 24⟩ 1
            [⟨List.replicate 24 0, fun _ => some 0⟩, ⟨List.replicate 24 1, fun _ => some 0⟩,
              ⟨List.replicate 24 2, fun _ => some 0⟩]
        ∧ ∃ pre, res.out = pre ++ packetLine ⟨'d', 's', 24⟩ 3 := by
  refine ⟨by decide, by decide, ?_⟩
  obtain ⟨res, h, hexit, hout, hend⟩ := (main_output_blocks ⟨'d', 's', 24⟩
    [⟨List.replicate 24 0, fun _ => some 0⟩, ⟨List.replicate 24 1, fun _ => some 0⟩,
      ⟨List.replicate 24 2, fun _ => some 0⟩] (by decide)
    (fun r hr => readable_of_behind r (by
      intro i
      simp only [List.mem_cons, List.mem_singleton, List.not_mem_nil, or_false] at hr
      rcases hr with rfl | rfl | rfl <;> rfl))).1
  refine ⟨res, h, hexit, hout, ?_⟩
  rcases hend with ⟨hnil, _⟩ | hpre
  · exact absurd hnil (by simp)
  · exact hpre

/-- C12 fails as stated: after three records the output ends with the
`printf` line of the third record, not with a line reporting that 3 records
were processed; and for an empty capture file nothing at all is printed. -/
theorem main_status_line_counterexample :
    (∃ res pre, main ⟨'d', 's', 24⟩ (Except.ok
          [Pull.packet ⟨List.replicate 24 0, fun _ => some 0⟩,
            Pull.packet ⟨List.replicate 24 1, fun _ => some 0⟩,
            Pull.packet ⟨List.replicate 24 2, fun _ => some 0⟩]) = some res
        ∧ res.exit = 0
        ∧ res.out = pre ++ "d = s     udp packet n: 3 24\n".toList)
    ∧ (main ⟨'d', 's', 24⟩ (Except.ok [])).map (fun res => (res.exit, res.out)) = some (0, []) := by
  constructor
  · obtain ⟨res, h, hexit, hout, _⟩ := main_run ⟨'d', 's', 24⟩
      [Pull.packet ⟨List.replicate 24 0, fun _ => some 0⟩,
        Pull.packet ⟨List.replicate 24 1, fun _ => some 0⟩,
        Pull.packet ⟨List.replicate 24 2, fun _ => some 0⟩]
      (take_readable _ 20 (by
        intro r hr i
        simp only [leadingRecords, List.mem_cons, List.mem_singleton, List.not_mem_nil,
          or_false] at hr
        rcases hr with rfl | rfl | rfl <;> rfl))
    have hl : (leadingRecords
        [Pull.packet ⟨List.replicate 24 0, fun _ => some 0⟩,
          Pull.packet ⟨List.replicate 24 1, fun _ => some 0⟩,
          Pull.packet ⟨List.replicate 24 2, fun _ => some 0⟩]).take 20
        = [⟨List.replicate 24 0, fun _ => some 0⟩, ⟨List.replicate 24 1, fun _ => some 0⟩,
            ⟨List.replicate 24 2, fun _ => some 0⟩] := rfl
    rw [hl] at hout
    have hp : packetLine ⟨'d', 's', 24⟩ 3 = "d = s     udp packet n: 3 24\n".toList := by decide
    rcases blockTexts_end ⟨'d', 's', 24⟩
      [⟨List.replicate 24 0, fun _ => some 0⟩, ⟨List.replicate 24 1, fun _ => some 0⟩,
        ⟨List.replicate 24 2, fun _ => some 0⟩] with ⟨hnil, _⟩ | ⟨pre, hpre⟩
    · exact absurd hnil (by simp)
    · exact ⟨res, pre, h, hexit, by rw [hout, hpre]; exact congrArg _ hp⟩
  · decide

/-! ## The dump requests of the driver (claim C15) -/

/-- C15, the code at the failing input: for one record whose `header` holds 24
bytes, `main` asks `hexDump` for 2560 bytes of that buffer, and the dump reads
every offset below 2560, offset 24 and the 2535 offsets after it included. -/
theorem main_dump_request_past_header :
    ∃ res d, main ⟨'d', 's', 24⟩
        (Except.ok [Pull.packet ⟨List.replicate 24 0, fun _ => some 0⟩]) = some res
      ∧ res.requests = [(List.replicate 24 0, 2560)]
      ∧ (List.replicate 24 (0 : Byte)).length = 24
      ∧ hexDump (some "my_str".toList) (bufMem (List.replicate 24 0) (fun _ => some 0)) 2560
          = some d
      ∧ d.reads = List.range 2560
      ∧ 24 ∈ d.reads ∧ 2559 ∈ d.reads := by
  have hr : (⟨List.replicate 24 0, fun _ => some 0⟩ : Record).readable :=
    readable_of_behind _ (fun _ => rfl)
  obtain ⟨res, h, _, _, hreq, _⟩ := main_run ⟨'d', 's', 24⟩
    [Pull.packet ⟨List.replicate 24 0, fun _ => some 0⟩]
    (take_readable _ 20 (by intro r hr i; simp [leadingRecords] at hr; subst hr; rfl))
  obtain ⟨d, hd, _, hreads, _⟩ :=
    hexDump_readable (some "my_str".toList) (bufMem (List.replicate 24 0) (fun _ => some 0)) 2560
      (by omega) hr
  refine ⟨res, d, h, by rw [hreq]; rfl, by decide, hd, hreads, ?_, ?_⟩
  · rw [hreads]; exact List.mem_range.mpr (by omega)
  · rw [hreads]; exact List.mem_range.mpr (by omega)

/-! ## Timestamps (claims C13 and C18) -/

theorem toInt32_of_int (v : Int) (h1 : -2147483648 ≤ v) (h2 : v < 2147483648) :
    toInt32 v = v := by
  unfold toInt32
  omega

theorem fmtInt_eq_toString (v : Int) : fmtInt v = (toString v).toList := by
  cases v with
  | ofNat m =>
    have h : ¬ (Int.ofNat m < 0) := by simp
    simp only [fmtInt, h, if_false]
    rfl
  | negSucc m =>
    have h : Int.negSucc m < 0 := Int.negSucc_lt_zero m
    simp only [fmtInt, h, if_true]
    rfl

theorem readNat_zeros (k : Nat) (ds : List Char) :
    readNat (List.replicate k '0' ++ ds) = readNat ds := by
  have h : ∀ k, (List.replicate k '0').foldl (fun a c => 10 * a + (c.toNat - '0'.toNat)) 0 = 0 := by
    intro k
    induction k with
    | zero => rfl
    | succ k ih => rw [List.replicate_succ, List.foldl_cons]; exact ih
  unfold readNat
  rw [List.foldl_append, h]

theorem readInt_digits (ds : List Char) (h : ∀ c ∈ ds, c.isDigit = true) :
    readInt ds = (readNat ds : Int) := by
  unfold readInt
  split
  · have hd : ¬ ('-'.isDigit = true) := by decide
    exact absurd (h '-' (by simp)) hd
  · rfl

theorem zeroPad_digits (w : Nat) (ds : List Char) (h : ∀ c ∈ ds, c.isDigit = true) :
    (∀ c ∈ zeroPad w ds, c.isDigit = true) ∧ readNat (zeroPad w ds) = readNat ds := by
  refine ⟨?_, readNat_zeros _ ds⟩
  intro c hc
  rcases List.mem_append.mp hc with hc | hc
  · rw [List.eq_of_mem_replicate hc]; decide
  · exact h c hc

theorem readInt_fmtInt (v : Int) : readInt (fmtInt v) = v := by
  by_cases hv : v < 0
  · exact (fmtInt_neg v hv).2
  · have e : fmtInt v = Nat.toDigits 10 v.toNat := by simp [fmtInt, hv]
    rw [e, readInt_digits _ (toDigits_decimal _), readNat_toDigits]
    omega

theorem readInt_fmtInt06 (v : Int) : readInt (fmtInt06 v) = v := by
  by_cases hv : v < 0
  · have e : fmtInt06 v = '-' :: zeroPad 5 (Nat.toDigits 10 v.natAbs) := by simp [fmtInt06, hv]
    rw [e, readInt, (zeroPad_digits 5 _ (toDigits_decimal _)).2, readNat_toDigits]
    omega
  · have e : fmtInt06 v = zeroPad 6 (Nat.toDigits 10 v.toNat) := by simp [fmtInt06, hv]
    obtain ⟨h1, h2⟩ := zeroPad_digits 6 _ (toDigits_decimal v.toNat)
    rw [e, readInt_digits _ h1, h2, readNat_toDigits]
    omega

theorem fmtInt_no_dot (v : Int) : ∀ c ∈ fmtInt v, c ≠ '.' := by
  have hd : ∀ n, ∀ c ∈ Nat.toDigits 10 n, c ≠ '.' := by
    intro n c hc hdot
    have := toDigits_decimal n c hc
    rw [hdot] at this
    revert this; decide
  intro c hc
  unfold fmtInt at hc
  split at hc
  · rcases List.mem_cons.mp hc with rfl | hc
    · decide
    · exact hd _ c hc
  · exact hd _ c hc

theorem split_at_dot (a b c d : List Char) (ha : ∀ x ∈ a, x ≠ '.') (hc : ∀ x ∈ c, x ≠ '.')
    (h : a ++ '.' :: b = c ++ '.' :: d) : a = c ∧ b = d := by
  have h1 := takeWhile_append_stop (fun x => decide (x ≠ '.')) a '.' b
    (fun x hx => by simpa using ha x hx) (by simp)
  have h2 := takeWhile_append_stop (fun x => decide (x ≠ '.')) c '.' d
    (fun x hx => by simpa using hc x hx) (by simp)
  rw [h] at h1
  have e1 : a = c := by rw [← h1.1, h2.1]
  have e2 : '.' :: b = '.' :: d := by rw [← h1.2, h2.2]
  exact ⟨e1, (List.cons.inj e2).2⟩

theorem fmtInt06_six (u : Int) (h0 : 0 ≤ u) (h1 : u < 1000000) :
    (fmtInt06 u).length = 6 ∧ (∀ c ∈ fmtInt06 u, c.isDigit = true)
      ∧ readNat (fmtInt06 u) = u.toNat := by
  have hv : ¬ u < 0 := by omega
  have e : fmtInt06 u = zeroPad 6 (Nat.toDigits 10 u.toNat) := by simp [fmtInt06, hv]
  have hlen : (Nat.toDigits 10 u.toNat).length ≤ 6 :=
    Nat.toDigitsCore_length 10 (by decide) (u.toNat + 1) u.toNat 6
      (by have : u.toNat < 1000000 := by omega
          simpa using this) (by decide)
  obtain ⟨hd, hr⟩ := zeroPad_digits 6 _ (toDigits_decimal u.toNat)
  rw [e]
  refine ⟨?_, hd, by rw [hr, readNat_toDigits]⟩
  simp only [zeroPad, List.length_append, List.length_replicate]
  omega

/-- C13: for seconds `s` in the range of `int` and microseconds `u` with
`0 ≤ u < 1000000`, `timestamp_string` gives the decimal rendering of `s`, a
dot, and exactly six decimal digits whose value is `u` (so `u` with leading
zeros); it is a function of the two fields. -/
theorem timestamp_string_format (s u : Int) (hs1 : -2147483648 ≤ s) (hs2 : s < 2147483648)
    (hu0 : 0 ≤ u) (hu1 : u < 1000000) :
    ∃ ds, timestamp_string s u = (toString s).toList ++ '.' :: ds
      ∧ readInt (toString s).toList = s
      ∧ ds.length = 6 ∧ (∀ c ∈ ds, c.isDigit = true) ∧ (readNat ds : Int) = u := by
  obtain ⟨hlen, hdig, hval⟩ := fmtInt06_six u hu0 hu1
  refine ⟨fmtInt06 u, ?_, ?_, hlen, hdig, by rw [hval]; omega⟩
  · rw [timestamp_string, toInt32_of_int s hs1 hs2, toInt32_of_int u (by omega) (by omega),
      fmtInt_eq_toString, List.append_assoc]
    rfl
  · rw [← fmtInt_eq_toString]
    exact readInt_fmtInt s

/-- C13, witness: 1700000000 seconds and 42 microseconds give
`1700000000.000042`; negative seconds keep their sign. -/
theorem timestamp_string_format_witness :
    timestamp_string 1700000000 42 = "1700000000.000042".toList
    ∧ timestamp_string (-3) 999999 = "-3.999999".toList
    ∧ ∃ ds, timestamp_string 1700000000 42 = (toString (1700000000 : Int)).toList ++ '.' :: ds
      ∧ readInt (toString (1700000000 : Int)).toList = 1700000000
      ∧ ds.length = 6 ∧ (∀ c ∈ ds, c.isDigit = true) ∧ (readNat ds : Int) = 42 :=
  ⟨by decide, by decide,
    timestamp_string_format 1700000000 42 (by decide) (by decide) (by decide) (by decide)⟩

/-- C18: on timestamps whose seconds and microseconds fit in `int`,
`timestamp_string` is injective: equal strings come from equal seconds and
equal microseconds, negative and over-range microseconds included. -/
theorem timestamp_string_injective (s1 u1 s2 u2 : Int)
    (hs1 : -2147483648 ≤ s1 ∧ s1 < 2147483648) (hu1 : -2147483648 ≤ u1 ∧ u1 < 2147483648)
    (hs2 : -2147483648 ≤ s2 ∧ s2 < 2147483648) (hu2 : -2147483648 ≤ u2 ∧ u2 < 2147483648)
    (h : timestamp_string s1 u1 = timestamp_string s2 u2) : s1 = s2 ∧ u1 = u2 := by
  simp only [timestamp_string, toInt32_of_int s1 hs1.1 hs1.2, toInt32_of_int u1 hu1.1 hu1.2,
    toInt32_of_int s2 hs2.1 hs2.2, toInt32_of_int u2 hu2.1 hu2.2] at h
  have h1 : fmtInt s1 ++ '.' :: fmtInt06 u1 = fmtInt s2 ++ '.' :: fmtInt06 u2 := by
    simpa [List.append_assoc] using h
  obtain ⟨ea, eb⟩ := split_at_dot _ _ _ _ (fmtInt_no_dot s1) (fmtInt_no_dot s2) h1
  constructor
  · rw [← readInt_fmtInt s1, ea, readInt_fmtInt]
  · rw [← readInt_fmtInt06 u1, eb, readInt_fmtInt06]

/-- C18, witness: a timestamp with negative microseconds and one with
over-range microseconds; moving a digit across the dot changes the string. -/
theorem timestamp_string_injective_witness :
    timestamp_string 5 (-7) = "5.-00007".toList
    ∧ timestamp_string 5 1234567 = "5.1234567".toList
    ∧ ((5 : Int) = 5 ∧ (-7 : Int) = -7)
    ∧ timestamp_string 1 23 ≠ timestamp_string 12 3 :=
  ⟨by decide, by decide,
    timestamp_string_injective 5 (-7) 5 (-7) (by decide) (by decide) (by decide) (by decide) rfl,
    fun h => absurd
      (timestamp_string_injective 1 23 12 3 (by decide) (by decide) (by decide) (by decide) h).1
      (by decide)⟩

/-! ## The offset field (claim C14) -/

theorem hexVal_digitChar (d : Nat) (hd : d < 16) : hexVal (Nat.digitChar d) = some d := by
  interval_cases d <;> decide

theorem readHex_toDigitsCore (fuel n : Nat) (acc : List Char) (h : n < fuel) :
    (Nat.toDigitsCore 16 fuel n acc).foldl (fun a c => 16 * a + (hexVal c).getD 0) 0
      = acc.foldl (fun a c => 16 * a + (hexVal c).getD 0) n := by
  induction fuel generalizing n acc with
  | zero => omega
  | succ fuel ih =>
    have hd : (hexVal (Nat.digitChar (n % 16))).getD 0 = n % 16 := by
      rw [hexVal_digitChar _ (Nat.mod_lt _ (by decide))]; rfl
    simp only [Nat.toDigitsCore]
    split
    · rename_i h0
      simp only [List.foldl_cons, hd, Nat.mul_zero, Nat.zero_add]
      congr 1
      omega
    · rename_i h0
      rw [ih (n / 16) _ (by omega)]
      simp only [List.foldl_cons, hd]
      congr 1
      omega

theorem readHex_fmtHex (w v : Nat) : readHex (fmtHex w v) = v := by
  have hz : ∀ k, (List.replicate k '0').foldl (fun a c => 16 * a + (hexVal c).getD 0) 0 = 0 := by
    intro k
    induction k with
    | zero => rfl
    | succ k ih => rw [List.replicate_succ, List.foldl_cons]; exact ih
  unfold readHex fmtHex zeroPad Nat.toDigits
  rw [List.foldl_append, hz, readHex_toDigitsCore (v + 1) v [] (by omega)]
  rfl

theorem fmtHex_hex_digits (w v : Nat) : ∀ c ∈ fmtHex w v, (hexVal c).isSome = true := by
  intro c hc
  unfold fmtHex zeroPad at hc
  rcases List.mem_append.mp hc with hc | hc
  · rw [List.eq_of_mem_replicate hc]; decide
  · exact toDigitsCore_mem 16 (by decide) (fun c => (hexVal c).isSome = true)
      (fun d hd => by show (hexVal (Nat.digitChar d)).isSome = true
                      rw [hexVal_digitChar d hd]; rfl) _ _ [] (by simp) c hc

theorem fmtHex_length_ge (w v : Nat) : w ≤ (fmtHex w v).length := by
  simp only [fmtHex, zeroPad, List.length_append, List.length_replicate]
  omega

/-- C14: for `0 < n ≤ data.length`, line `j` of `hexDump(NULL, data, n)` is two
blanks, the offset field, one blank and then the hex portion; the offset
field consists of lowercase hexadecimal digits whose value is `16 * j`, at
least four of them and exactly four while the offset is below `0x10000`.  The
first line carries `0000`. -/
theorem hexDump_line_offset (data : List Byte) (beyond : Nat → Option Byte) (n : Nat)
    (h0 : 0 < n) (hn : n ≤ data.length) :
    ∃ s, hexDump none (bufMem data beyond) (n : Int) = some s
      ∧ (∃ line, (splitLines s.out)[0]? = some line ∧ offsetField line = "0000".toList)
      ∧ ∀ j, 16 * j < n → ∃ line off tail, (splitLines s.out)[j]? = some line
          ∧ line = "  ".toList ++ off ++ " ".toList ++ hexPortion line ++ tail
          ∧ offsetField line = off
          ∧ (∀ c ∈ off, (hexVal c).isSome = true)
          ∧ readHex off = 16 * j
          ∧ 4 ≤ off.length ∧ (off.length = 4 ∨ 65536 ≤ 16 * j) := by
  obtain ⟨s, hs, _, hlines, _⟩ := hexDump_lines data beyond n h0 (bufMem_isSome data beyond n hn)
  have key : ∀ j, 16 * j < n → ∃ line off tail, (splitLines s.out)[j]? = some line
      ∧ line = "  ".toList ++ off ++ " ".toList ++ hexPortion line ++ tail
      ∧ offsetField line = off
      ∧ (∀ c ∈ off, (hexVal c).isSome = true)
      ∧ readHex off = 16 * j
      ∧ 4 ≤ off.length ∧ (off.length = 4 ∨ 65536 ≤ 16 * j) := by
    intro j hj
    obtain ⟨hline, _, _⟩ := line_of_group data beyond n j hn hj s hlines
    refine ⟨_, fmtHex 4 (16 * j),
      List.replicate (3 * (16 - groupLen n j)) ' '
        ++ ("  ".toList ++ asciiPart (group (bufBytes data beyond) j (groupLen n j))),
      hline, ?_, offsetField_lineText _ j _,
      fmtHex_hex_digits 4 _, readHex_fmtHex 4 _, fmtHex_length_ge 4 _, ?_⟩
    · rw [hexPortion_lineText _ j _ (groupLen_le n j), ← hexPart_eq]
      simp only [lineText, lineBody, lineHead, List.append_assoc]
    · by_cases hsmall : 16 * j < 65536
      · exact Or.inl (fmtHex_four_length _ hsmall)
      · exact Or.inr (by omega)
  refine ⟨s, hs, ?_, key⟩
  obtain ⟨hline1, _, _⟩ := line_of_group data beyond n 0 hn (by omega) s hlines
  refine ⟨_, hline1, ?_⟩
  rw [offsetField_lineText]
  decide

/-- C14, witness: 33 bytes give the offsets `0000`, `0010` and `0020`. -/
theorem hexDump_line_offset_witness :
    (hexDump none (bufMem (List.replicate 33 0x41) (fun _ => none)) 33).map
        (fun s => (splitLines s.out).map offsetField)
      = some ["0000".toList, "0010".toList, "0020".toList]
    ∧ readHex "0020".toList = 32
    ∧ ∃ s, hexDump none (bufMem (List.replicate 33 0x41) (fun _ => none)) ((33 : Nat) : Int) = some s
      ∧ (∃ line, (splitLines s.out)[0]? = some line ∧ offsetField line = "0000".toList)
      ∧ ∀ j, 16 * j < 33 → ∃ line off tail, (splitLines s.out)[j]? = some line
          ∧ line = "  ".toList ++ off ++ " ".toList ++ hexPortion line ++ tail
          ∧ offsetField line = off
          ∧ (∀ c ∈ off, (hexVal c).isSome = true)
          ∧ readHex off = 16 * j
          ∧ 4 ≤ off.length ∧ (off.length = 4 ∨ 65536 ≤ 16 * j) :=
  ⟨by decide, by decide,
    hexDump_line_offset (List.replicate 33 0x41) (fun _ => none) 33 (by decide) (by decide)⟩

/-! ## The label (claim C16) -/

theorem hexDump_nonpos (desc : Option (List Char)) (pc : Nat → Option Byte) (n : Int)
    (h : n ≤ 0) :
    hexDump desc pc n = some
      { out := labelText desc ++
          (if n = 0 then "  ZERO LENGTH\n".toList
            else "  NEGATIVE LENGTH: ".toList ++ fmtInt n ++ "\n".toList)
        buff := List.replicate 17 none, reads := [], writes := [] } := by
  by_cases h0 : n = 0
  · subst h0
    rfl
  · have hneg : n < 0 := by omega
    simp only [hexDump, h0, hneg, if_true, if_false]
    rfl

theorem hexDump_out_label (desc : Option (List Char)) (pc : Nat → Option Byte) (n : Int)
    (hread : ∀ i : Nat, (i : Int) < n → (pc i).isSome = true) :
    ∃ s, hexDump desc pc n = some s
      ∧ ∃ body, s.out = labelText desc ++ body
        ∧ ∀ desc1, ∃ s1, hexDump desc1 pc n = some s1
            ∧ s1.out = labelText desc1 ++ body ∧ s1.reads = s.reads := by
  by_cases hpos : 0 < n
  · obtain ⟨k, rfl⟩ : ∃ k : Nat, n = (k : Int) := ⟨n.toNat, by omega⟩
    have hk : 0 < k := by omega
    have hr : ∀ i, i < k → (pc i).isSome = true := fun i hi => hread i (by omega)
    obtain ⟨s, hs, hout, hreads, _⟩ := hexDump_readable desc pc k hk hr
    refine ⟨s, hs, dumpText (memBytes pc) k, hout, fun desc1 => ?_⟩
    obtain ⟨s1, hs1, hout1, hreads1, _⟩ := hexDump_readable desc1 pc k hk hr
    exact ⟨s1, hs1, hout1, by rw [hreads1, hreads]⟩
  · have hle : n ≤ 0 := by omega
    exact ⟨_, hexDump_nonpos desc pc n hle, _, rfl,
      fun desc1 => ⟨_, hexDump_nonpos desc1 pc n hle, rfl, rfl⟩⟩

/-- C16: for every label `L`, every requested length `n` (zero, negative or
positive) and every memory whose bytes below `n` are readable, `hexDump` with
the label `L` prints `L:` and a line feed, then exactly the output of
`hexDump` without a label for the same memory and `n`, and reads the same
bytes.  When `L` holds no line feed, `L:` is a line of its own before the
lines of the unlabelled output. -/
theorem hexDump_label (L : List Char) (pc : Nat → Option Byte) (n : Int)
    (hread : ∀ i : Nat, (i : Int) < n → (pc i).isSome = true) :
    ∃ s0 s1, hexDump none pc n = some s0 ∧ hexDump (some L) pc n = some s1
      ∧ s1.out = L ++ ":\n".toList ++ s0.out
      ∧ s1.reads = s0.reads
      ∧ ('\n' ∉ L → splitLines s1.out = (L ++ ":".toList) :: splitLines s0.out) := by
  obtain ⟨s0, hs0, body, hbody, hall⟩ := hexDump_out_label none pc n hread
  obtain ⟨s1, hs1, hout1, hreads1⟩ := hall (some L)
  have hb : s0.out = body := by simpa [labelText] using hbody
  have ho : s1.out = L ++ ":\n".toList ++ s0.out := by rw [hout1, hb]; rfl
  refine ⟨s0, s1, hs0, hs1, ho, hreads1, fun hL => ?_⟩
  have hnl : '\n' ∉ L ++ ":".toList := by
    intro h
    rcases List.mem_append.mp h with h | h
    · exact hL h
    · revert h; decide
  have := splitLines_line (L ++ ":".toList) s0.out hnl
  rw [ho]
  simpa [List.append_assoc] using this

/-- C16, witness: the label `my_str` on a dump of three bytes, and on a
request of length 0. -/
theorem hexDump_label_witness :
    (hexDump (some "my_str".toList) (bufMem [0x41, 0x00, 0x7f] (fun _ => none)) 3).map
        (fun s => (splitLines s.out).map String.mk)
      = some ["my_str:", "  0000  41 00 7f                                         A.."]
    ∧ (hexDump (some "my_str".toList) (bufMem [0x41, 0x00, 0x7f] (fun _ => none)) 0).map
        (fun s => (splitLines s.out).map String.mk)
      = some ["my_str:", "  ZERO LENGTH"]
    ∧ ∃ s0 s1, hexDump none (bufMem [0x41, 0x00, 0x7f] (fun _ => none)) 3 = some s0
      ∧ hexDump (some "my_str".toList) (bufMem [0x41, 0x00, 0x7f] (fun _ => none)) 3 = some s1
      ∧ s1.out = "my_str".toList ++ ":\n".toList ++ s0.out
      ∧ s1.reads = s0.reads
      ∧ splitLines s1.out = ("my_str".toList ++ ":".toList) :: splitLines s0.out := by
  refine ⟨by decide, by decide, ?_⟩
  obtain ⟨s0, s1, h0, h1, ho, hr, hl⟩ :=
    hexDump_label "my_str".toList (bufMem [0x41, 0x00, 0x7f] (fun _ => none)) 3
      (fun i hi => bufMem_isSome [0x41, 0x00, 0x7f] (fun _ => none) 3 (by decide) i (by omega))
  exact ⟨s0, s1, h0, h1, ho, hr, hl (by decide)⟩

/-! ## The scratch array `buff` (claim C19) -/

theorem bufMem_replicate (N : Nat) (b : Byte) (beyond : Nat → Option Byte) (i : Nat)
    (hi : i < N) : bufMem (List.replicate N b) beyond i = some b := by
  have h : i < (List.replicate N b).length := by rw [List.length_replicate]; exact hi
  unfold bufMem
  rw [dif_pos h]
  simp

/-- C19: for `n > 0` and readable bytes, `hexDump` returns, so every `printf`
of `buff` found written cells only and a terminator inside the array; the indices of `buff`
written are, for `i = 0, ..., n - 1` in order, `i % 16` and `i % 16 + 1`, all
at most 16; and the string printed for line `j` consists of the characters
of the bytes of group `j` and nothing else. -/
theorem hexDump_scratch_buffer (desc : Option (List Char)) (mem : Nat → Option Byte)
    (pc : Nat → Byte) (n : Nat) (hn : 0 < n) (hread : ∀ i, i < n → mem i = some (pc i)) :
    (∃ s, hexDump desc mem (n : Int) = some s
      ∧ s.writes = (List.range n).flatMap (fun i => [i % 16, i % 16 + 1])
      ∧ (∀ w ∈ s.writes, w ≤ 16)
      ∧ ∀ i, i < n → i % 16 ∈ s.writes ∧ i % 16 + 1 ∈ s.writes)
    ∧ ∃ s, hexDump none mem (n : Int) = some s
      ∧ ∀ j, 16 * j < n → ∃ line, (splitLines s.out)[j]? = some line
        ∧ asciiColumn line
          = (List.range (min 16 (n - 16 * j))).map (fun k => asciiChar (pc (16 * j + k))) := by
  constructor
  · obtain ⟨s, hs, _, _, hw⟩ := hexDump_pos desc mem pc n hn hread
    refine ⟨s, hs, hw, ?_, ?_⟩
    · intro w hmem
      rw [hw] at hmem
      obtain ⟨i, _, hi⟩ := List.mem_flatMap.mp hmem
      simp only [List.mem_cons, List.mem_singleton, List.not_mem_nil, or_false] at hi
      omega
    · intro i hi
      rw [hw]
      constructor
      · exact List.mem_flatMap.mpr ⟨i, List.mem_range.mpr hi, by simp⟩
      · exact List.mem_flatMap.mpr ⟨i, List.mem_range.mpr hi, by simp⟩
  · obtain ⟨s, hs, hout, _⟩ := hexDump_pos none mem pc n hn hread
    have hlines : splitLines s.out = dumpLines pc n := by
      rw [hout]; simpa [labelText] using splitLines_dumpText pc n
    refine ⟨s, hs, fun j hj => ⟨_, by rw [hlines]; exact dumpLines_getElem? pc n j hj, ?_⟩⟩
    rw [asciiColumn_lineText pc j _ (groupLen_le n j)]
    simp [group, groupLen]

/-- C19, witness: 18 bytes; the writes reach index 16 once, at the end of the
first group, and the second line shows the two characters of its group. -/
theorem hexDump_scratch_buffer_witness :
    (hexDump none (bufMem (List.replicate 18 0x41) (fun _ => none)) 18).map
        (fun s => (s.writes.take 4, s.writes.drop 30, (splitLines s.out).map asciiColumn))
      = some ([0, 1, 1, 2], [15, 16, 0, 1, 1, 2], ["AAAAAAAAAAAAAAAA".toList, "AA".toList])
    ∧ (∃ s, hexDump none (bufMem (List.replicate 18 0x41) (fun _ => none)) ((18 : Nat) : Int) = some s
      ∧ s.writes = (List.range 18).flatMap (fun i => [i % 16, i % 16 + 1])
      ∧ (∀ w ∈ s.writes, w ≤ 16)
      ∧ ∀ i, i < 18 → i % 16 ∈ s.writes ∧ i % 16 + 1 ∈ s.writes)
    ∧ ∃ s, hexDump none (bufMem (List.replicate 18 0x41) (fun _ => none)) ((18 : Nat) : Int) = some s
      ∧ ∀ j, 16 * j < 18 → ∃ line, (splitLines s.out)[j]? = some line
        ∧ asciiColumn line = (List.range (min 16 (18 - 16 * j))).map
            (fun k => asciiChar ((fun _ => (0x41 : Byte)) (16 * j + k))) :=
  ⟨by decide,
    hexDump_scratch_buffer none (bufMem (List.replicate 18 0x41) (fun _ => none))
      (fun _ => 0x41) 18 (by decide)
      (fun i hi => bufMem_replicate 18 0x41 (fun _ => none) i hi)⟩

end Ktulanux
